import Mathlib

/-!
Verification of the comment-thread analytics engine of the Confluence
hackathon app: the comment tree builder, the thread ranking and scoring
engine, the user-enrichment cache, the interactive popup controller and
the inline-marker HTML annotator, shallowly embedded from the JavaScript
sources (src/static/hello-world, src/static/heatmap and the unnamed parts
holding the user-info cache and the popup hook).
-/

namespace ConfApp

/-- A flat comment as received from the Confluence API, restricted to the
fields the analytics engine reads.  The JavaScript accesses
comment.version?.authorId and comment.properties?.inlineMarkerRef; the
optional chaining is flattened into Option-valued fields here. -/
structure Comment where
  id : String
  parentCommentId : Option String := none
  resolutionStatus : Option String := none
  authorId : Option String := none
  inlineMarkerRef : Option String := none
  deriving Repr, DecidableEq

/-- JavaScript truthiness test for a string-or-null value: a test such as
`!comment.parentCommentId` is true when the value is null/undefined or the
empty string. -/
def jsFalsyStr : Option String → Bool
  | none => true
  | some s => s = ""

/-- The normalization `x || null` that the node constructors apply to
string fields: the empty string collapses to null. -/
def jsOrNull : Option String → Option String
  | none => none
  | some s => if s = "" then none else some s

/-- Association-list lookup, the observable behaviour of JavaScript
Map.get / Map.has as used by the tree builder, the caches and the color
map. -/
def mapLookup [DecidableEq κ] (k : κ) : List (κ × α) → Option α
  | [] => none
  | (k', v) :: rest => if k' = k then some v else mapLookup k rest

/-- JavaScript Map.set modelled as shadowing cons: a later set wins every
later get.  The builder and the caches never iterate their maps, so the
iteration order of the underlying Map is not observable. -/
def mapSet (m : List (String × α)) (k : String) (v : α) : List (String × α) :=
  (k, v) :: m

/-- The per-comment node payload created by pass 1 of buildCommentTree
(the fields shared by the hello-world and heatmap variants; the mutable
children array lives in the tree's childAdds log instead). -/
structure NodeData where
  id : String
  resolutionStatus : Option String
  authorId : Option String
  inlineMarkerRef : Option String
  deriving Repr, DecidableEq

instance : Inhabited NodeData := ⟨⟨"", none, none, none⟩⟩

/-- Pass 1 node construction: resolutionStatus and inlineMarkerRef are
normalized with `|| null`; the heatmap variant also normalizes authorId
with `|| null`. -/
def mkNode (c : Comment) : NodeData :=
  { id := c.id
    resolutionStatus := jsOrNull c.resolutionStatus
    authorId := jsOrNull c.authorId
    inlineMarkerRef := jsOrNull c.inlineMarkerRef }

/-- The result of buildCommentTree, as a heap: the node map from pass 1,
the roots pushed by pass 2 (as node ids), and the log of child pushes
(parent id, child id) performed by pass 2.  A JavaScript node object
keyed by id has children equal to the child pushes targeting that id, in
push order. -/
structure CommentTree where
  nodeMap : List (String × NodeData)
  roots : List String
  childAdds : List (String × String)
  deriving Repr, DecidableEq

/-- Intermediate state of pass 2. -/
structure LinkState where
  roots : List String
  childAdds : List (String × String)
  deriving Repr, DecidableEq

/-- One iteration of pass 2 of buildCommentTree: a comment with a falsy
parentCommentId is pushed to roots; otherwise the parent is looked up in
the node map, and the comment is attached to it when present and pushed
to roots when absent (orphan). -/
def linkStep (nodeMap : List (String × NodeData)) (st : LinkState) (c : Comment) : LinkState :=
  match c.parentCommentId with
  | none => { st with roots := st.roots ++ [c.id] }
  | some p =>
    if p = "" then { st with roots := st.roots ++ [c.id] }
    else if (mapLookup p nodeMap).isSome then { st with childAdds := st.childAdds ++ [(p, c.id)] }
    else { st with roots := st.roots ++ [c.id] }

/-- buildCommentTree (src/static/hello-world/src/utils/commentRanking.js
and src/static/heatmap/src/utils/commentRanking.js): empty guard, then
pass 1 creates one node per comment keyed by id, and pass 2 links each
comment to its parent or promotes it to a root. -/
def buildCommentTree (comments : List Comment) : CommentTree :=
  if comments.isEmpty then { nodeMap := [], roots := [], childAdds := [] }
  else
    let nodeMap := comments.foldl (fun m c => mapSet m c.id (mkNode c)) []
    let st := comments.foldl (linkStep nodeMap) { roots := [], childAdds := [] }
    { nodeMap := nodeMap, roots := st.roots, childAdds := st.childAdds }

/-- The children of the node keyed by an id: the child pushes that
targeted that node, in push order. -/
def childrenOf (t : CommentTree) (x : String) : List String :=
  (t.childAdds.filter (fun pr => pr.1 = x)).map (fun pr => pr.2)

/-- Depth-limited flattening of the (possibly cyclic) linked structure:
the ids reachable from a node through children, preorder.  Fuel equal to
the number of comments is enough to reach every node when parent links
are acyclic. -/
def flattenFrom (t : CommentTree) : Nat → String → List String
  | 0, _ => []
  | fuel + 1, x => x :: (childrenOf t x).flatMap (flattenFrom t fuel)

/-- The multiset of node ids in the forest returned by buildCommentTree,
observed with the given unfolding depth. -/
def forestIds (t : CommentTree) (fuel : Nat) : List String :=
  t.roots.flatMap (flattenFrom t fuel)

/-- The root condition actually implemented by pass 2: falsy parent
(null, undefined or empty string) or parent id absent from the input id
set. -/
def codeRootCond (ids : List String) (c : Comment) : Bool :=
  match c.parentCommentId with
  | none => true
  | some p => p = "" || ¬ (p ∈ ids)

/-- The root condition as the specification states it: parent null/absent
or parent id not present in the input id set. -/
def specRootCond (ids : List String) (c : Comment) : Bool :=
  match c.parentCommentId with
  | none => true
  | some p => ¬ (p ∈ ids)

/-- The attachment target implemented by pass 2: the parent id, when the
parent reference is truthy and present in the input id set. -/
def attachTarget (ids : List String) (c : Comment) : Option String :=
  match c.parentCommentId with
  | none => none
  | some p => if p = "" then none else if p ∈ ids then some p else none

/-- The list of input comment ids (pass 1 key set), in input order. -/
def commentIds (cs : List Comment) : List String := cs.map (fun c => c.id)

/-- Iterated child layers of the linked structure: layer 0 is the given
start list, layer j+1 holds the children of layer j's nodes. -/
def levelFrom (t : CommentTree) (L : List String) : Nat → List String
  | 0 => L
  | j + 1 => (levelFrom t L j).flatMap (childrenOf t)

/-- An input with an empty-string comment id referenced as a parent: the
reply is promoted to a root although its declared parent is present. -/
def cexEmptyParentRef : List Comment :=
  [{ id := "" }, { id := "x", parentCommentId := some "" }]

/-- A two-comment parent cycle: pass 2 attaches each comment to the
other, so the roots list stays empty and the forest loses both nodes. -/
def cexParentCycle : List Comment :=
  [{ id := "1", parentCommentId := some "2" }, { id := "2", parentCommentId := some "1" }]

/-- Two comments sharing one id: pass 2 pushes the surviving node to the
roots twice, so the forest holds it twice. -/
def cexDuplicateIds : List Comment :=
  [{ id := "1" }, { id := "1" }]

/-- A well-founded three-comment thread used to exercise the amended C2
theorem: a root, a reply and a nested reply, ranked by id length. -/
def witThread : List Comment :=
  [{ id := "1" }, { id := "22", parentCommentId := some "1" },
   { id := "333", parentCommentId := some "22" }]

/-- countReplies with explicit unfolding depth: the total number of
nested replies below a node (children.reduce of 1 + recursive count).
Depth equal to the number of comments fully unfolds any acyclic tree. -/
def countRepliesF (t : CommentTree) : Nat → String → Nat
  | 0, _ => 0
  | fuel + 1, x => ((childrenOf t x).map (fun c => 1 + countRepliesF t fuel c)).sum

/-- collectParticipants with explicit unfolding depth: the author ids
gathered over a subtree (the JavaScript accumulates them into a Set whose
only consumed observation is its size, i.e. the number of distinct
entries). -/
def participantsF (t : CommentTree) : Nat → String → List String
  | 0, _ => []
  | fuel + 1, x =>
    (match mapLookup x t.nodeMap with
     | some nd => match nd.authorId with
       | some a => [a]
       | none => []
     | none => []) ++ (childrenOf t x).flatMap (participantsF t fuel)

/-- The node payload stored for an id, as read back through Map.get by
the ranking code (roots are always present, so the default is dead). -/
def payloadOf (t : CommentTree) (r : String) : NodeData :=
  (mapLookup r t.nodeMap).getD default

/-- A ranked thread summary of the heatmap variant: the spread root node
plus threadCount (1 + replies) and participantCount. -/
structure RankedThread where
  node : NodeData
  threadCount : Nat
  participantCount : Nat
  deriving Repr, DecidableEq

/-- A ranked summary of the hello-world variant: the spread root node
plus its recomputed replyCount. -/
structure RankedThreadHW where
  node : NodeData
  replyCount : Nat
  deriving Repr, DecidableEq

/-- The pre-sort list built by the heatmap rankParentsByReplies: roots
filtered by resolutionStatus === status, mapped to summaries, in root
order. -/
def threadSummaries (comments : List Comment) (status : String) : List RankedThread :=
  let t := buildCommentTree comments
  (t.roots.filter (fun r => (payloadOf t r).resolutionStatus == some status)).map
    (fun r =>
      { node := payloadOf t r
        threadCount := 1 + countRepliesF t comments.length r
        participantCount := (participantsF t comments.length r).dedup.length })

/-- The pre-sort list built by the hello-world rankParentsByReplies:
status "all" keeps every root, any other status filters by strict
equality. -/
def threadSummariesHW (comments : List Comment) (status : String) : List RankedThreadHW :=
  let t := buildCommentTree comments
  let filtered := if status = "all" then t.roots
    else t.roots.filter (fun r => (payloadOf t r).resolutionStatus == some status)
  filtered.map (fun r => { node := payloadOf t r, replyCount := countRepliesF t comments.length r })

/-- Stable insertion of an element into a descending-by-key list: the new
element, which precedes the list elements in the original order, goes in
front of the first strictly smaller key and behind equal keys only never
- i.e. in front of equal keys encountered later.  This realizes the
unique stable descending sort that ECMAScript Array.prototype.sort
performs with the comparator (a, b) => key(b) - key(a). -/
def insertByKeyDesc (key : α → Nat) (x : α) : List α → List α
  | [] => [x]
  | y :: ys => if key y ≤ key x then x :: y :: ys else y :: insertByKeyDesc key x ys

/-- Stable descending sort by a numeric key. -/
def sortByKeyDesc (key : α → Nat) (l : List α) : List α :=
  l.foldr (insertByKeyDesc key) []

/-- rankParentsByReplies, heatmap variant
(src/static/heatmap/src/utils/commentRanking.js): empty guard, build the
tree, filter the roots by status, summarize, and stable-sort descending
by threadCount. -/
def rankParentsByReplies (comments : List Comment) (status : String) : List RankedThread :=
  if comments.isEmpty then []
  else sortByKeyDesc (fun s => s.threadCount) (threadSummaries comments status)

/-- rankParentsByReplies, hello-world variant
(src/static/hello-world/src/utils/commentRanking.js): same shape, ranked
by replyCount, with a passthrough for status "all". -/
def rankParentsByRepliesHW (comments : List Comment) (status : String) : List RankedThreadHW :=
  if comments.isEmpty then []
  else sortByKeyDesc (fun s => s.replyCount) (threadSummariesHW comments status)

/-- The tier calculateScore assigns to position i in a list of n nodes
(src/static/hello-world/src/utils/spacePageLoader.js).  The source
compares the float percentile i / n against 0.25, 0.5 and 0.75; for
positions and lengths of any realistic magnitude those comparisons agree
exactly with the rational comparisons 4i < n, 4i < 2n and 4i < 3n used
here. -/
def calculateScoreAt (i n : Nat) : Nat :=
  if 4 * i < n then 3
  else if 4 * i < 2 * n then 2
  else if 4 * i < 3 * n then 1
  else 0

/-- calculateScore: empty guard, then map each node at index i to the
node extended with its positional score. -/
def calculateScore (nodes : List α) : List (α × Nat) :=
  if nodes.isEmpty then []
  else nodes.enum.map (fun p => (p.2, calculateScoreAt p.1 nodes.length))

/-- Scaling every thread size by a constant factor, used to state that
score tiers ignore absolute thread sizes. -/
def scaleThread (k : Nat) (s : RankedThread) : RankedThread :=
  { s with threadCount := k * s.threadCount }

/-- A ranked list of five threads with sizes 5..1, on which the tier-2
bucket has 1 element while the ceiling of N / 4 is 2. -/
def witRanked5 : List RankedThread :=
  [{ node := default, threadCount := 5, participantCount := 1 },
   { node := default, threadCount := 4, participantCount := 1 },
   { node := default, threadCount := 3, participantCount := 1 },
   { node := default, threadCount := 2, participantCount := 1 },
   { node := default, threadCount := 1, participantCount := 1 }]

/-- JavaScript Map.delete, observed through get: removes the entry keyed
by k (a real Map holds at most one). -/
def mapDelete (k : String) (m : List (String × α)) : List (String × α) :=
  m.filter (fun pr => ¬ (pr.1 = k))

/-- The identity payload returned by the Confluence user API, restricted
to the fields the cache and the enrichment helpers read
(user.displayName and user.profilePicture?.path). -/
structure UserData where
  displayName : String
  profilePicturePath : Option String
  deriving Repr, DecidableEq

/-- Outcome of the underlying network lookup getUserInfo
(src/static/hello-world/src/api/confluence.js): a user object when the
request succeeds, a rejection otherwise. -/
inductive FetchOutcome
  | ok (u : UserData)
  | fail
  deriving Repr, DecidableEq

/-- State of the UserInfoCache service (src/unnamed/part_033): the result
cache (an entry holding none records a failed lookup cached as null), the
pending-promise map, and a counter naming promises so that promise
identity is observable. -/
structure CacheState where
  cache : List (String × Option UserData)
  pending : List (String × Nat)
  nextPromiseId : Nat
  deriving Repr, DecidableEq

/-- The cache before any call: both maps empty. -/
def initCacheState : CacheState := { cache := [], pending := [], nextPromiseId := 0 }

/-- What the synchronous body of UserInfoCache.getUserInfo produces: null
for a falsy id, the cached value, the already pending promise, or a
freshly started request. -/
inductive GetOutcome
  | nullId
  | cached (v : Option UserData)
  | pendingHit (pid : Nat)
  | started (pid : Nat)
  deriving Repr, DecidableEq

/-- UserInfoCache.getUserInfo, synchronous phase: falsy-id guard, cache
hit, pending hit, else start a lookup and store the pending promise.  The
final component lists the account ids for which this call issued an
underlying network lookup. -/
def getUserInfoCall (s : CacheState) (accountId : Option String) :
    GetOutcome × CacheState × List String :=
  match accountId with
  | none => (.nullId, s, [])
  | some a =>
    if a = "" then (.nullId, s, [])
    else
      match mapLookup a s.cache with
      | some v => (.cached v, s, [])
      | none =>
        match mapLookup a s.pending with
        | some pid => (.pendingHit pid, s, [])
        | none =>
          (.started s.nextPromiseId,
            { s with pending := mapSet s.pending a s.nextPromiseId,
                     nextPromiseId := s.nextPromiseId + 1 },
            [a])

/-- Settlement of the network lookup for an id: the then-handler caches
the user and deletes the pending entry; the catch-handler deletes the
pending entry and caches null to prevent retry loops.  The second
component is the value the getUserInfo promise resolves with — the catch
branch resolves null rather than rejecting. -/
def settleFetch (s : CacheState) (a : String) (res : FetchOutcome) :
    CacheState × Option UserData :=
  match res with
  | .ok u =>
    ({ s with cache := mapSet s.cache a (some u), pending := mapDelete a s.pending }, some u)
  | .fail =>
    ({ s with cache := mapSet s.cache a none, pending := mapDelete a s.pending }, none)

/-- One observable step of the cache: a getUserInfo call, or the
settlement of an issued (hence pending) lookup. -/
inductive CacheStep : CacheState → CacheState → Prop
  | call (s : CacheState) (accountId : Option String) :
      CacheStep s (getUserInfoCall s accountId).2.1
  | settle (s : CacheState) (a : String) (res : FetchOutcome) (pid : Nat) :
      mapLookup a s.pending = some pid → CacheStep s (settleFetch s a res).1

/-- States reachable from the initial empty cache. -/
def CacheReachable (s : CacheState) : Prop :=
  Relation.ReflTransGen CacheStep initCacheState s

/-- Cache invariant: pending keys are distinct non-empty ids disjoint
from the cached ids. -/
def CacheInv (s : CacheState) : Prop :=
  (s.pending.map (fun pr => pr.1)).Nodup
  ∧ (∀ a, (mapLookup a s.pending).isSome → mapLookup a s.cache = none)
  ∧ (∀ a, (mapLookup a s.pending).isSome → ¬ (a = ""))

/-- The cache state after one getUserInfo call for "u1" on the empty
cache: a single pending lookup with promise id 0. -/
def witCache1 : CacheState := (getUserInfoCall initCacheState (some "u1")).2.1

/-- getAvatarUrl (src/unnamed/part_032): the user's profile-picture path
appended to the site base URL, or the default avatar for a falsy path.
The DEFAULT_AVATAR constant and the base URL come from modules outside
the analytics core, so they are parameters here. -/
def getAvatarUrl (defaultAvatar baseUrl : String) (u : UserData) : String :=
  match u.profilePicturePath with
  | none => defaultAvatar
  | some p => if p = "" then defaultAvatar else baseUrl ++ p

/-- The enriched identity record getEnrichedUserInfo returns. -/
structure EnrichedUser where
  userId : Option String
  displayName : String
  avatarUrl : Option String
  deriving Repr, DecidableEq

/-- The record UserInfoCache.getEnrichedUserInfo builds from the awaited
user value of a truthy account id: displayName falls back to
"Unknown User" for a null user or falsy name, and the avatar is null for
a null user. -/
def enrichFromUser (defaultAvatar baseUrl : String) (a : String) (user : Option UserData) :
    EnrichedUser :=
  { userId := some a
    displayName :=
      match user with
      | some u => if u.displayName = "" then "Unknown User" else u.displayName
      | none => "Unknown User"
    avatarUrl :=
      match user with
      | some u => some (getAvatarUrl defaultAvatar baseUrl u)
      | none => none }

/-- First-occurrence deduplication, the observable order of spreading a
JavaScript Set built from a list. -/
def jsSetDedup (l : List String) : List String :=
  l.foldl (fun acc x => if x ∈ acc then acc else acc ++ [x]) []

/-- The eventual value of the getUserInfo promise for a truthy account
id, under the environment deciding each underlying fetch: the cached
value if cached, otherwise the settled result of the (new or already
pending) lookup. -/
def promiseValue (s : CacheState) (env : String → FetchOutcome) (a : String) : Option UserData :=
  if a = "" then none
  else
    match mapLookup a s.cache with
    | some v => v
    | none =>
      match env a with
      | .ok u => some u
      | .fail => none

/-- Whether a getUserInfo call for an id on the given state would issue a
fresh network lookup: the id is truthy, not cached and not pending. -/
def freshLookupId (s : CacheState) (a : String) : Bool :=
  if a = "" then false
  else if (mapLookup a s.cache).isSome then false
  else if (mapLookup a s.pending).isSome then false
  else true

/-- UserInfoCache.getMultipleUserInfo: empty guard, dedup of the non-null
ids, one getUserInfo start per unique id (threading the cache state and
collecting issued lookups), await of all promises, and read-back of the
results through a lookup map keyed by unique id, so the output matches
the input index-by-index with null for null ids.  Returns the result
list, the state after every awaited lookup settles, and the ids for
which this call issued a network lookup. -/
def getMultipleUserInfo (s : CacheState) (env : String → FetchOutcome)
    (accountIds : List (Option String)) :
    List (Option UserData) × CacheState × List String :=
  if accountIds.isEmpty then ([], s, [])
  else
    let uniqueIds := jsSetDedup (accountIds.filterMap (fun x => x))
    let issue := uniqueIds.foldl
      (fun (acc : CacheState × List String) a =>
        let r := getUserInfoCall acc.1 (some a)
        (r.2.1, acc.2 ++ r.2.2)) (s, [])
    let users := uniqueIds.map (promiseValue s env)
    let userMap := uniqueIds.zip users
    let result := accountIds.map (fun idOpt =>
      match idOpt with
      | none => none
      | some a => (mapLookup a userMap).getD none)
    let final := uniqueIds.foldl
      (fun st a =>
        if (mapLookup a st.pending).isSome then (settleFetch st a (env a)).1 else st)
      issue.1
    (result, final, issue.2)

/-- The enriched record getMultipleEnrichedUserInfo computes per unique
id: the null-id placeholder for a falsy id, otherwise the enrichment of
the awaited user value. -/
def enrichedPromiseValue (defaultAvatar baseUrl : String) (s : CacheState)
    (env : String → FetchOutcome) (a : String) : EnrichedUser :=
  if a = "" then { userId := none, displayName := "Unknown User", avatarUrl := none }
  else enrichFromUser defaultAvatar baseUrl a (promiseValue s env a)

/-- UserInfoCache.getMultipleEnrichedUserInfo: same shape as
getMultipleUserInfo, mapping each unique id through getEnrichedUserInfo
and reading results back through a lookup map with an Unknown User
fallback (dead, since every unique id is in the map). -/
def getMultipleEnrichedUserInfo (defaultAvatar baseUrl : String) (s : CacheState)
    (env : String → FetchOutcome) (accountIds : List (Option String)) :
    List (Option EnrichedUser) × List String :=
  if accountIds.isEmpty then ([], [])
  else
    let uniqueIds := jsSetDedup (accountIds.filterMap (fun x => x))
    let issue := uniqueIds.foldl
      (fun (acc : CacheState × List String) a =>
        let r := getUserInfoCall acc.1 (some a)
        (r.2.1, acc.2 ++ r.2.2)) (s, [])
    let enriched := uniqueIds.map (enrichedPromiseValue defaultAvatar baseUrl s env)
    let enrichedMap := uniqueIds.zip enriched
    let result := accountIds.map (fun idOpt =>
      match idOpt with
      | none => none
      | some a =>
        some ((mapLookup a enrichedMap).getD
          { userId := some a, displayName := "Unknown User", avatarUrl := none }))
    (result, issue.2)

/-- The popup state of the useCommentPopup hook (src/unnamed/part_034):
visibility, vertical anchor, the enriched comments shown (opaque tokens
here), the marker the popup is bound to, and the stored target element
(identified by the marker ref it was found under). -/
structure PopupState where
  visible : Bool
  y : Int
  comments : List String
  markerRef : Option String
  target : Option String
  deriving Repr, DecidableEq

/-- The mutable state around the popup in useCommentPopup: the popup
itself, the processing lock ref, the operation-id ref, and the number of
scheduled, not yet fired unlock timeouts. -/
structure ControllerState where
  popup : PopupState
  isProcessing : Bool
  operationId : Nat
  pendingUnlocks : Nat
  deriving Repr, DecidableEq

/-- The controller state on mount: popup hidden and empty, lock free,
operation counter zero. -/
def initControllerState : ControllerState :=
  { popup := { visible := false, y := 0, comments := [], markerRef := none, target := none }
    isProcessing := false
    operationId := 0
    pendingUnlocks := 0 }

/-- Outcome of the synchronous prefix of openPopupForMarker, up to its
await of the enrichment. -/
inductive OpenOutcome
  | blockedProcessing
  | alreadyOpen
  | invalidArgs
  | markerNotFound
  | suspended (opId : Nat)
  deriving Repr, DecidableEq

/-- useCommentPopup.openPopupForMarker, synchronous prefix
(src/unnamed/part_034): skip while processing, skip when already showing
the same marker, skip falsy arguments; otherwise take the lock, bump the
operation id, look the marker element up in the DOM (releasing the lock
when absent) and suspend on the enrichment await. -/
def openPopupForMarkerStart (st : ControllerState) (markerRef : Option String)
    (comments : List Comment) (domHasMarker : String → Bool) :
    OpenOutcome × ControllerState :=
  if st.isProcessing then (.blockedProcessing, st)
  else if st.popup.visible && st.popup.markerRef == markerRef then (.alreadyOpen, st)
  else if jsFalsyStr markerRef || comments.isEmpty then (.invalidArgs, st)
  else
    match markerRef with
    | none => (.invalidArgs, st)
    | some m =>
      let st1 := { st with isProcessing := true, operationId := st.operationId + 1 }
      if domHasMarker m then (.suspended st1.operationId, st1)
      else (.markerNotFound, { st1 with isProcessing := false })

/-- Outcome of resuming openPopupForMarker after the enrichment await. -/
inductive ResumeOutcome
  | enrichFailed
  | staleDiscarded
  | emptyEnrichment
  | committed
  deriving Repr, DecidableEq

/-- useCommentPopup.openPopupForMarker, continuation after the await: the
catch branch releases the lock when the enrichment rejected; a result
bearing a stale operation id is abandoned silently with no state change;
an empty enrichment releases the lock; otherwise the popup is bound to
the marker and the unlock timeout is scheduled. -/
def openPopupForMarkerResume (st : ControllerState) (opId : Nat) (m : String) (markerY : Int)
    (enrichResult : Option (List String)) : ResumeOutcome × ControllerState :=
  match enrichResult with
  | none => (.enrichFailed, { st with isProcessing := false })
  | some enriched =>
    if ¬ (opId = st.operationId) then (.staleDiscarded, st)
    else if enriched.isEmpty then (.emptyEnrichment, { st with isProcessing := false })
    else
      (.committed,
        { st with
            popup := { visible := true, y := markerY, comments := enriched,
                       markerRef := some m, target := some m }
            pendingUnlocks := st.pendingUnlocks + 1 })

/-- useCommentPopup.handleClose: take the lock, hide the popup clearing
marker and target, and schedule the unlock timeout. -/
def handleClose (st : ControllerState) : ControllerState :=
  { st with
      isProcessing := true
      popup := { st.popup with visible := false, markerRef := none, target := none }
      pendingUnlocks := st.pendingUnlocks + 1 }

/-- A scheduled unlock timeout firing: releases the processing lock. -/
def unlockTimeout (st : ControllerState) : ControllerState :=
  if 0 < st.pendingUnlocks then
    { st with isProcessing := false, pendingUnlocks := st.pendingUnlocks - 1 }
  else st

/-- One pass of the reply-closure while-loop of openCommentPopup
(src/unnamed/part_032): adds every comment whose id is not yet related
and whose truthy parent id is already related. -/
def closureStep (allComments : List Comment) (rel : List String) : List String :=
  allComments.foldl
    (fun acc c =>
      match c.parentCommentId with
      | none => acc
      | some p =>
        if p = "" then acc
        else if ¬ (c.id ∈ acc) ∧ p ∈ acc then acc ++ [c.id] else acc)
    rel

/-- The while-loop closure of related comment ids: the loop body runs
until a pass adds nothing; length + 1 passes always reach that fixpoint
(each earlier pass adds at least one of finitely many ids), and applying
the body at the fixpoint changes nothing. -/
def relatedClosure (allComments : List Comment) (roots : List String) : List String :=
  Nat.iterate (closureStep allComments) (allComments.length + 1) roots

/-- Outcome of the synchronous prefix of openCommentPopup
(src/unnamed/part_032): the already-open guard, the no-root-comments
no-op, or suspension on enriching the related closure.  Unlike the hook
path, this path has no processing lock and no operation id. -/
inductive PopupClickOutcome
  | alreadyOpen
  | noComments
  | suspendedEnrich (relatedIds : List String)
  deriving Repr, DecidableEq

/-- openCommentPopup, synchronous prefix: return when the popup is
already visible for this marker; collect the comments anchored at the
marker; return when there are none; otherwise suspend on enriching the
marker's comments and all their transitive replies. -/
def openCommentPopupStart (current : PopupState) (markerRef : Option String)
    (allComments : List Comment) : PopupClickOutcome :=
  if current.visible && current.markerRef == markerRef then .alreadyOpen
  else
    let rootComments := allComments.filter (fun c => c.inlineMarkerRef == markerRef)
    if rootComments.isEmpty then .noComments
    else .suspendedEnrich (relatedClosure allComments (rootComments.map (fun c => c.id)))

/-- The comment list of the popup race scenario. -/
def c8Comments : List Comment := [{ id := "c1", inlineMarkerRef := some "m1" }]

/-- A DOM in which every marker element is found. -/
def c8Dom : String → Bool := fun _ => true

/-- The controller state after the open attempt for "m1" suspended on
its enrichment. -/
def c8State1 : ControllerState :=
  (openPopupForMarkerStart initControllerState (some "m1") c8Comments c8Dom).2

/-- The open attempt for "m2" issued while the "m1" enrichment is still
pending. -/
def c8Attempt2 : OpenOutcome × ControllerState :=
  openPopupForMarkerStart c8State1 (some "m2") c8Comments c8Dom

/-- The controller state after the "m1" enrichment resolves. -/
def c8Final : ControllerState :=
  (openPopupForMarkerResume c8Attempt2.2 1 "m1" 0 (some ["c1"])).2

/-- A controller state whose popup is visible and bound to "m1", used to
witness open-idempotence. -/
def witOpenController : ControllerState :=
  { popup := { visible := true, y := 10, comments := ["c1"], markerRef := some "m1",
               target := some "m1" }
    isProcessing := false
    operationId := 3
    pendingUnlocks := 0 }

/-- The opening literal of the comment-anchor tag the replacement regex
of wrapInlineCommentMarkers scans for. -/
def openLit : List Char := "<ac:inline-comment-marker".data

/-- The closing-tag literal the lazy content group stops at. -/
def closeLit : List Char := "</ac:inline-comment-marker>".data

/-- The attribute literal the ac:ref extraction regex scans for. -/
def refLit : List Char := "ac:ref=\"".data

/-- A regex word character (\w): letters, digits and underscore; the \b
after the tag-name literal requires the next character to not be one. -/
def isWordChar (c : Char) : Bool := c.isAlphanum || c = '_'

/-- Literal prefix test: does the input begin with the pattern. -/
def beginsWith : List Char → List Char → Bool
  | [], _ => true
  | _ :: _, [] => false
  | p :: ps, c :: cs => p = c && beginsWith ps cs

/-- Splits the input at the first occurrence of the literal, returning
the part before it and the part after it - the behaviour of a lazy group
followed by the literal. -/
def splitAtLit (lit : List Char) : List Char → Option (List Char × List Char)
  | [] => none
  | c :: cs =>
    if beginsWith lit (c :: cs) then some ([], (c :: cs).drop lit.length)
    else
      match splitAtLit lit cs with
      | some (b, a) => some (c :: b, a)
      | none => none

/-- The search for /ac:ref="([^"]+)"/ inside the captured attribute text:
at each position, match the literal, then take at least one character up
to a closing quote; otherwise advance one position. -/
def extractRef : List Char → Option (List Char)
  | [] => none
  | c :: cs =>
    if beginsWith refLit (c :: cs) then
      let rest := (c :: cs).drop refLit.length
      let v := rest.takeWhile (fun ch => ¬ (ch = '"'))
      if ¬ (v = []) ∧ v.length < rest.length then some v else extractRef cs
    else extractRef cs

/-- Attempts the marker regex at the current position: the opening
literal, a word boundary, the greedy attribute group [^>]* up to a
mandatory closing angle bracket, and the lazy content group up to the
first closing-tag literal. -/
def tryMatch (l : List Char) : Option (List Char × List Char × List Char) :=
  if beginsWith openLit l then
    match l.drop openLit.length with
    | [] => none
    | a :: rest0 =>
      if isWordChar a then none
      else
        let attrs := (a :: rest0).takeWhile (fun ch => ¬ (ch = '>'))
        match (a :: rest0).drop attrs.length with
        | [] => none
        | _ :: afterGt =>
          match splitAtLit closeLit afterGt with
          | none => none
          | some (content, rest) => some (attrs, content, rest)
  else none

/-- Pieces of the span element the replacement callback builds. -/
def spanPart1 : List Char := "<span class=\"conf-inline-comment ".data

/-- Part between the color class and the data-marker-ref value. -/
def spanPart2 : List Char := "\" data-marker-ref=\"".data

/-- Part closing the opening span tag. -/
def spanPart3 : List Char := "\">".data

/-- The closing span tag. -/
def spanClose : List Char := "</span>".data

/-- The lightest color class, used when the marker has no map entry. -/
def defaultColorClass : List Char := "comment-rank-0".data

/-- The replacement the regex callback produces for one matched marker
tag: a span carrying the conf-inline-comment class, the color class from
the map (or the lightest class when the extracted ref is missing or
unmapped), the data-marker-ref attribute (empty when no ref was
extracted) and the original content. -/
def mkReplacement (colorMap : List (List Char × List Char)) (attrs content : List Char) :
    List Char :=
  let extractedRef := extractRef attrs
  let colorClass :=
    match extractedRef with
    | some r =>
      match mapLookup r colorMap with
      | some cls => cls
      | none => defaultColorClass
    | none => defaultColorClass
  spanPart1 ++ colorClass ++ spanPart2
    ++ (match extractedRef with | some r => r | none => [])
    ++ spanPart3 ++ content ++ spanClose

theorem beginsWith_length (p : List Char) :
    ∀ (l : List Char), beginsWith p l = true → p.length ≤ l.length := by
  induction p with
  | nil => intro l _; simp
  | cons x ps ih =>
    intro l h
    rcases l with _ | ⟨c, cs⟩
    · cases h
    · rw [beginsWith, Bool.and_eq_true] at h
      have := ih cs h.2
      simp only [List.length_cons]
      omega

theorem splitAtLit_rest_le (lit : List Char) :
    ∀ (l b a : List Char), splitAtLit lit l = some (b, a) → a.length + lit.length ≤ l.length := by
  intro l
  induction l with
  | nil => intro b a h; cases h
  | cons c cs ih =>
    intro b a h
    rw [splitAtLit] at h
    by_cases hb : beginsWith lit (c :: cs)
    · rw [if_pos hb] at h
      cases h
      have h1 := beginsWith_length lit (c :: cs) hb
      rw [List.length_drop]
      omega
    · rw [if_neg hb] at h
      rcases hsp : splitAtLit lit cs with _ | ⟨b', a'⟩
      · rw [hsp] at h
        cases h
      · rw [hsp] at h
        cases h
        have := ih b' a hsp
        simp only [List.length_cons]
        omega

theorem tryMatch_rest_lt (l attrs content rest : List Char)
    (h : tryMatch l = some (attrs, content, rest)) : rest.length < l.length := by
  rw [tryMatch] at h
  by_cases h0 : beginsWith openLit l
  · rw [if_pos h0] at h
    have hlen0 : openLit.length ≤ l.length := beginsWith_length openLit l h0
    rcases hdrop : l.drop openLit.length with _ | ⟨a, rest0⟩
    · rw [hdrop] at h
      cases h
    · rw [hdrop] at h
      dsimp only at h
      by_cases hw : isWordChar a
      · rw [if_pos hw] at h
        cases h
      · rw [if_neg hw] at h
        rcases hdrop2 : (a :: rest0).drop
            ((a :: rest0).takeWhile (fun ch => ¬ (ch = '>'))).length with _ | ⟨g, afterGt⟩
        · rw [hdrop2] at h
          cases h
        · rw [hdrop2] at h
          dsimp only at h
          rcases hsp : splitAtLit closeLit afterGt with _ | ⟨b', a'⟩
          · rw [hsp] at h
            cases h
          · rw [hsp] at h
            cases h
            have h1 := splitAtLit_rest_le closeLit afterGt _ _ hsp
            have htw : ((a :: rest0).takeWhile (fun ch => ¬ (ch = '>'))).length ≤
                (a :: rest0).length := (List.takeWhile_sublist _).length_le
            have h2 : l.length = openLit.length + (a :: rest0).length := by
              have hlen := congrArg List.length hdrop
              rw [List.length_drop] at hlen
              omega
            have h3 : ((a :: rest0).takeWhile (fun ch => ¬ (ch = '>'))).length +
                (afterGt.length + 1) = (a :: rest0).length := by
              have hlen := congrArg List.length hdrop2
              rw [List.length_drop] at hlen
              simp only [List.length_cons] at hlen ⊢
              omega
            have h5 : (0 : Nat) < closeLit.length := by decide
            omega
  · rw [if_neg h0] at h
    cases h

/-- wrapInlineCommentMarkers' global regex scan: at each position either
replace a full match and continue after it, or emit the character and
move on. -/
def wrapAux (colorMap : List (List Char × List Char)) : List Char → List Char
  | [] => []
  | c :: cs =>
    match hm : tryMatch (c :: cs) with
    | some (attrs, content, rest) => mkReplacement colorMap attrs content ++ wrapAux colorMap rest
    | none => c :: wrapAux colorMap cs
termination_by l => l.length
decreasing_by
  · exact tryMatch_rest_lt _ _ _ _ hm
  · simp

/-- wrapInlineCommentMarkers
(src/static/hello-world/src/utils/htmlProcessing.js): falsy-input guard,
then the global regex replacement of every comment-anchor tag with its
span, modelled over character lists. -/
def wrapInlineCommentMarkers (colorMap : List (List Char × List Char)) (html : List Char) :
    List Char :=
  if html = [] then [] else wrapAux colorMap html

/-- A raw-markup shape: plain text or one comment-anchor tag with its
attribute text and content. -/
inductive Seg
  | text (s : List Char)
  | marker (attrs content : List Char)

/-- Rendering a segment back to raw markup. -/
def renderSeg : Seg → List Char
  | .text s => s
  | .marker attrs content => openLit ++ attrs ++ '>' :: (content ++ closeLit)

/-- Rendering a segment list to raw markup. -/
def render (segs : List Seg) : List Char := segs.flatMap renderSeg

/-- The canonical attribute text carrying one ac:ref value. -/
def mkRefAttrs (r : List Char) : List Char := ' ' :: (refLit ++ r ++ ['"'])

/-- Well-formed markup segments: text holds no tag opener; attribute
text holds no angle bracket and starts at a word boundary; content holds
no tag opener (Confluence storage format escapes raw angle brackets in
text). -/
def segWF : Seg → Bool
  | .text s => ¬ '<' ∈ s
  | .marker attrs content =>
      (¬ '>' ∈ attrs) && (¬ '<' ∈ attrs)
      && (match attrs with
          | [] => true
          | a :: _ => ¬ (isWordChar a = true))
      && (¬ '<' ∈ content)

/-- Example segments used to witness the annotation theorem. -/
def witSegs : List Seg :=
  [Seg.text "Hello ".data,
   Seg.marker (mkRefAttrs "m1".data) "world".data,
   Seg.text "!".data]

/-- Example color map binding marker "m1" to the tier-2 class. -/
def witColorMap : List (List Char × List Char) :=
  [("m1".data, "comment-rank-2".data)]

/-- The expected annotation of one segment: text is untouched, each
marker tag becomes its span replacement. -/
def wrapSeg (colorMap : List (List Char × List Char)) : Seg → List Char
  | .text s => s
  | .marker attrs content => mkReplacement colorMap attrs content

theorem mapLookup_isSome_foldl_nodeMap (cs : List Comment) (m : List (String × NodeData)) (p : String) :
    (mapLookup p (cs.foldl (fun m c => mapSet m c.id (mkNode c)) m)).isSome =
      (p ∈ cs.map (fun c => c.id) || (mapLookup p m).isSome) := by
  induction cs generalizing m with
  | nil => simp
  | cons c cs ih =>
    rw [List.foldl_cons, ih]
    by_cases h : c.id = p
    · subst h
      simp [mapSet, mapLookup]
    · have h' : ¬ p = c.id := fun hh => h hh.symm
      simp [mapSet, mapLookup, h, h']

/-- Key lemma about pass 1: the node map contains an id exactly when some
input comment has that id. -/
theorem nodeMap_has_iff (cs : List Comment) (p : String) :
    (mapLookup p ((buildCommentTree cs).nodeMap)).isSome = (p ∈ cs.map (fun c => c.id)) := by
  rcases hcs : cs with _ | ⟨c, cs'⟩
  · simp [buildCommentTree, mapLookup]
  · rw [← hcs]
    have hne : cs.isEmpty = false := by rw [hcs]; rfl
    have h2 := mapLookup_isSome_foldl_nodeMap cs [] p
    simp only [mapLookup, Bool.or_false] at h2
    simp [buildCommentTree, hne, h2]

theorem linkPass_roots_childAdds (nodeMap : List (String × NodeData)) (cs : List Comment) (st : LinkState) :
    cs.foldl (linkStep nodeMap) st =
      { roots := st.roots ++
          (cs.filter (fun c =>
            match c.parentCommentId with
            | none => true
            | some p => p = "" || ¬ (mapLookup p nodeMap).isSome)).map (fun c => c.id)
        childAdds := st.childAdds ++
          cs.filterMap (fun c =>
            match c.parentCommentId with
            | none => none
            | some p => if p = "" then none
                        else if (mapLookup p nodeMap).isSome then some (p, c.id) else none) } := by
  induction cs generalizing st with
  | nil => simp
  | cons c cs ih =>
    simp only [List.foldl_cons, ih, List.filter_cons, List.filterMap_cons]
    rcases hp : c.parentCommentId with _ | p
    · simp [linkStep, hp]
    · by_cases hpe : p = ""
      · simp [linkStep, hp, hpe]
      · by_cases hm : (mapLookup p nodeMap).isSome
        · simp [linkStep, hp, hpe, hm]
        · simp [linkStep, hp, hpe, hm]

/-- Pass 2 characterization: the roots are exactly the input comments, in
input order, whose parent reference is falsy or absent from the input id
set. -/
theorem buildCommentTree_roots (cs : List Comment) :
    (buildCommentTree cs).roots = (cs.filter (codeRootCond (cs.map (fun c => c.id)))).map (fun c => c.id) := by
  rcases hcs : cs with _ | ⟨c, cs'⟩
  · simp [buildCommentTree]
  · rw [← hcs]
    have hne : cs.isEmpty = false := by rw [hcs]; rfl
    simp only [buildCommentTree, hne, Bool.false_eq_true, if_false, linkPass_roots_childAdds,
      List.nil_append]
    congr 1
    congr 1
    funext d
    unfold codeRootCond
    rcases hp : d.parentCommentId with _ | p
    · rfl
    · have h2 := mapLookup_isSome_foldl_nodeMap cs [] p
      simp only [mapLookup, Bool.or_false] at h2
      simp [h2]

/-- Pass 2 characterization: the child-push log records, in input order,
each comment with a truthy parent reference present in the input id set,
paired with that parent. -/
theorem buildCommentTree_childAdds (cs : List Comment) :
    (buildCommentTree cs).childAdds =
      cs.filterMap (fun c => (attachTarget (cs.map (fun d => d.id)) c).map (fun p => (p, c.id))) := by
  rcases hcs : cs with _ | ⟨c, cs'⟩
  · simp [buildCommentTree]
  · rw [← hcs]
    have hne : cs.isEmpty = false := by rw [hcs]; rfl
    simp only [buildCommentTree, hne, Bool.false_eq_true, if_false, linkPass_roots_childAdds,
      List.nil_append]
    congr 1
    funext d
    unfold attachTarget
    rcases hp : d.parentCommentId with _ | p
    · rfl
    · have h2 := mapLookup_isSome_foldl_nodeMap cs [] p
      simp only [mapLookup, Bool.or_false] at h2
      by_cases hpe : p = ""
      · simp [hpe]
      · by_cases hmem : p ∈ cs.map (fun d => d.id)
        · simp [hpe, hmem, h2]
        · simp [hpe, hmem, h2]

theorem filterMap_attach_filter (I : List String) (x : String) (cs : List Comment) :
    ((cs.filterMap (fun c => (attachTarget I c).map (fun p => (p, c.id)))).filter
        (fun pr => pr.1 = x)).map (fun pr => pr.2) =
      (cs.filter (fun c => attachTarget I c == some x)).map (fun c => c.id) := by
  induction cs with
  | nil => simp
  | cons c cs ih =>
    rcases h : attachTarget I c with _ | p
    · simp [h, ih]
    · by_cases hpx : p = x
      · subst hpx
        simp [h, ih]
      · simp [h, hpx, ih]

/-- The children of a node are the input comments, in input order, whose
attachment target is that node. -/
theorem childrenOf_buildCommentTree (cs : List Comment) (x : String) :
    childrenOf (buildCommentTree cs) x =
      (cs.filter (fun c => attachTarget (commentIds cs) c == some x)).map (fun c => c.id) := by
  unfold childrenOf
  rw [buildCommentTree_childAdds]
  exact filterMap_attach_filter (commentIds cs) x cs

theorem countP_id_unique (y : String) (q : Comment → Bool) :
    ∀ (cs : List Comment), (commentIds cs).Nodup → ∀ c ∈ cs, c.id = y →
      cs.countP (fun d => d.id == y && q d) = if q c then 1 else 0 := by
  intro cs
  induction cs with
  | nil =>
    intro _ c hc
    cases hc
  | cons a cs ih =>
    intro hnd c hc hcy
    simp only [commentIds, List.map_cons, List.nodup_cons] at hnd
    rcases hnd with ⟨ha, hnd'⟩
    rw [List.countP_cons, List.mem_cons] at *
    rcases hc with rfl | hc
    · have hzero : cs.countP (fun d => d.id == y && q d) = 0 := by
        rw [List.countP_eq_zero]
        intro d hd
        simp only [Bool.and_eq_true, beq_iff_eq]
        rintro ⟨hdy, -⟩
        exact ha (hcy ▸ hdy ▸ List.mem_map_of_mem (fun c => c.id) hd)
      simp [hzero, hcy]
    · have hay : ¬ (a.id = y) := by
        intro hay
        exact ha (hay ▸ hcy ▸ List.mem_map_of_mem (fun c => c.id) hc)
      have := ih hnd' c hc hcy
      simp [this, hay]

/-- Counts an id inside the id image of a filtered comment list, when the
input ids are duplicate-free: the count is 1 or 0 according to whether
the unique comment carrying the id passes the filter. -/
theorem count_filter_map_id (cs : List Comment) (q : Comment → Bool) (y : String)
    (hnd : (commentIds cs).Nodup) (c : Comment) (hc : c ∈ cs) (hcy : c.id = y) :
    ((cs.filter q).map (fun d => d.id)).count y = if q c then 1 else 0 := by
  rw [List.count_eq_countP, List.countP_map, Function.comp_def, List.countP_filter]
  exact countP_id_unique y q cs hnd c hc hcy

theorem count_filter_map_id_not_mem (cs : List Comment) (q : Comment → Bool) (y : String)
    (hy : ¬ y ∈ commentIds cs) :
    ((cs.filter q).map (fun d => d.id)).count y = 0 := by
  rw [List.count_eq_countP, List.countP_map, Function.comp_def, List.countP_filter,
    List.countP_eq_zero]
  intro d hd
  simp only [Bool.and_eq_true, beq_iff_eq]
  rintro ⟨hdy, -⟩
  exact hy (hdy ▸ List.mem_map_of_mem (fun c => c.id) hd)

theorem levelFrom_shift (t : CommentTree) (L : List String) (j : Nat) :
    levelFrom t (L.flatMap (childrenOf t)) j = levelFrom t L (j + 1) := by
  induction j with
  | zero => rfl
  | succ j ih =>
    show (levelFrom t (L.flatMap (childrenOf t)) j).flatMap (childrenOf t) =
      (levelFrom t L (j + 1)).flatMap (childrenOf t)
    rw [ih]

theorem flatMap_flattenFrom_zero (t : CommentTree) (L : List String) :
    L.flatMap (flattenFrom t 0) = [] := by
  induction L with
  | nil => rfl
  | cons x L ih => simp [List.flatMap_cons, flattenFrom, ih]

theorem count_flatMap_flattenFrom_step (t : CommentTree) (y : String) (k : Nat) (L : List String) :
    (L.flatMap (flattenFrom t (k + 1))).count y =
      L.count y + ((L.flatMap (childrenOf t)).flatMap (flattenFrom t k)).count y := by
  induction L with
  | nil => simp
  | cons x L ih =>
    simp only [List.flatMap_cons, List.count_append, List.count_cons, flattenFrom,
      List.flatMap_append] at *
    omega

/-- Telescoping of the depth-limited flattening against child layers: the
count of an id in the flattening to depth k is the sum of its counts in
the first k layers. -/
theorem count_flatMap_flattenFrom (t : CommentTree) (y : String) :
    ∀ (k : Nat) (L : List String),
      (L.flatMap (flattenFrom t k)).count y = ∑ j ∈ Finset.range k, (levelFrom t L j).count y := by
  intro k
  induction k with
  | zero =>
    intro L
    simp [flatMap_flattenFrom_zero]
  | succ k ih =>
    intro L
    rw [count_flatMap_flattenFrom_step, ih (L.flatMap (childrenOf t)),
      Finset.sum_range_succ' (fun j => (levelFrom t L j).count y) k]
    have hsh : ∀ j, levelFrom t (L.flatMap (childrenOf t)) j = levelFrom t L (j + 1) :=
      fun j => levelFrom_shift t L j
    simp only [hsh, levelFrom]
    exact Nat.add_comm _ _

theorem sum_map_indicator_count (p : String) (L : List String) :
    (L.map (fun x => if p = x then 1 else 0)).sum = L.count p := by
  induction L with
  | nil => rfl
  | cons x L ih =>
    rw [List.map_cons, List.sum_cons, List.count_cons, ih]
    by_cases h : p = x
    · simp [h]
      omega
    · have h' : ¬ x = p := fun hh => h hh.symm
      simp [h, h']

theorem attachTarget_none_iff (ids : List String) (c : Comment) :
    attachTarget ids c = none ↔ codeRootCond ids c = true := by
  unfold attachTarget codeRootCond
  rcases c.parentCommentId with _ | p
  · simp
  · by_cases hpe : p = "" <;> by_cases hm : p ∈ ids <;> simp [hpe, hm]

theorem attachTarget_some_mem (ids : List String) (c : Comment) (p : String)
    (h : attachTarget ids c = some p) : p ∈ ids := by
  unfold attachTarget at h
  rcases hq : c.parentCommentId with _ | q
  · rw [hq] at h
    cases h
  · rw [hq] at h
    dsimp only at h
    by_cases hpe : q = ""
    · rw [if_pos hpe] at h
      cases h
    · rw [if_neg hpe] at h
      by_cases hm : q ∈ ids
      · rw [if_pos hm] at h
        cases h
        exact hm
      · rw [if_neg hm] at h
        cases h

theorem count_level_zero (cs : List Comment) (hnd : (commentIds cs).Nodup)
    (c : Comment) (hc : c ∈ cs) :
    (levelFrom (buildCommentTree cs) (buildCommentTree cs).roots 0).count c.id =
      if codeRootCond (commentIds cs) c then 1 else 0 := by
  show ((buildCommentTree cs).roots).count c.id = _
  rw [buildCommentTree_roots]
  exact count_filter_map_id cs _ c.id hnd c hc rfl

theorem count_childrenOf_unique (cs : List Comment) (hnd : (commentIds cs).Nodup)
    (c : Comment) (hc : c ∈ cs) (x : String) :
    (childrenOf (buildCommentTree cs) x).count c.id =
      if attachTarget (commentIds cs) c == some x then 1 else 0 := by
  rw [childrenOf_buildCommentTree]
  exact count_filter_map_id cs _ c.id hnd c hc rfl

theorem count_level_succ (cs : List Comment) (hnd : (commentIds cs).Nodup)
    (c : Comment) (hc : c ∈ cs) (j : Nat) :
    (levelFrom (buildCommentTree cs) (buildCommentTree cs).roots (j + 1)).count c.id =
      (match attachTarget (commentIds cs) c with
       | some p => (levelFrom (buildCommentTree cs) (buildCommentTree cs).roots j).count p
       | none => 0) := by
  show ((levelFrom (buildCommentTree cs) (buildCommentTree cs).roots j).flatMap
    (childrenOf (buildCommentTree cs))).count c.id = _
  rw [List.count_flatMap]
  rcases h : attachTarget (commentIds cs) c with _ | p
  · apply List.sum_eq_zero
    intro z hz
    rw [List.mem_map] at hz
    rcases hz with ⟨x, -, rfl⟩
    have := count_childrenOf_unique cs hnd c hc x
    rw [h] at this
    simpa using this
  · have hmaps : (levelFrom (buildCommentTree cs) (buildCommentTree cs).roots j).map
        ((fun l => l.count c.id) ∘ childrenOf (buildCommentTree cs)) =
        (levelFrom (buildCommentTree cs) (buildCommentTree cs).roots j).map
        (fun x => if p = x then 1 else 0) := by
      apply List.map_congr_left
      intro x _
      have := count_childrenOf_unique cs hnd c hc x
      rw [h] at this
      simp only [Function.comp_apply, this]
      by_cases hpx : p = x
      · simp [hpx]
      · simp [hpx]
    rw [show (List.count c.id ∘ childrenOf (buildCommentTree cs)) =
      ((fun l => l.count c.id) ∘ childrenOf (buildCommentTree cs)) from rfl, hmaps,
      sum_map_indicator_count]

theorem level_mem_ids (cs : List Comment) :
    ∀ (j : Nat) (y : String),
      y ∈ levelFrom (buildCommentTree cs) (buildCommentTree cs).roots j → y ∈ commentIds cs := by
  intro j
  induction j with
  | zero =>
    intro y hy
    replace hy : y ∈ (buildCommentTree cs).roots := hy
    rw [buildCommentTree_roots, List.mem_map] at hy
    rcases hy with ⟨c, hc, rfl⟩
    exact List.mem_map_of_mem (fun c => c.id) (List.mem_of_mem_filter hc)
  | succ j ih =>
    intro y hy
    replace hy : y ∈ (levelFrom (buildCommentTree cs) (buildCommentTree cs).roots j).flatMap
      (childrenOf (buildCommentTree cs)) := hy
    rw [List.mem_flatMap] at hy
    rcases hy with ⟨x, -, hy⟩
    rw [childrenOf_buildCommentTree, List.mem_map] at hy
    rcases hy with ⟨c, hc, rfl⟩
    exact List.mem_map_of_mem (fun c => c.id) (List.mem_of_mem_filter hc)

theorem level_rank_bound (cs : List Comment) (rank : String → Nat)
    (hrank : ∀ c ∈ cs, ∀ p, attachTarget (commentIds cs) c = some p → rank p < rank c.id) :
    ∀ (j : Nat) (x : String),
      x ∈ levelFrom (buildCommentTree cs) (buildCommentTree cs).roots j → j ≤ rank x := by
  intro j
  induction j with
  | zero => intro x _; exact Nat.zero_le _
  | succ j ih =>
    intro x hx
    replace hx : x ∈ (levelFrom (buildCommentTree cs) (buildCommentTree cs).roots j).flatMap
      (childrenOf (buildCommentTree cs)) := hx
    rw [List.mem_flatMap] at hx
    rcases hx with ⟨z, hz, hx⟩
    rw [childrenOf_buildCommentTree, List.mem_map] at hx
    rcases hx with ⟨c, hc, rfl⟩
    rw [List.mem_filter] at hc
    rcases hc with ⟨hc, hatt⟩
    rw [beq_iff_eq] at hatt
    have h1 : rank z < rank c.id := hrank c hc z hatt
    have h2 : j ≤ rank z := ih z hz
    omega

theorem totalCount_eq_one (cs : List Comment) (rank : String → Nat)
    (hnd : (commentIds cs).Nodup)
    (hrank : ∀ c ∈ cs, ∀ p, attachTarget (commentIds cs) c = some p → rank p < rank c.id)
    (hbound : ∀ c ∈ cs, rank c.id < cs.length) :
    ∀ (K : Nat), ∀ c ∈ cs, rank c.id < K →
      (∑ j ∈ Finset.range cs.length,
        (levelFrom (buildCommentTree cs) (buildCommentTree cs).roots j).count c.id) = 1 := by
  intro K
  induction K with
  | zero => intro c _ hK; omega
  | succ K ih =>
    intro c hc hK
    obtain ⟨m, hm⟩ : ∃ m, cs.length = m + 1 := by
      have : 0 < cs.length := List.length_pos.mpr (List.ne_nil_of_mem hc)
      exact ⟨cs.length - 1, by omega⟩
    rcases h : attachTarget (commentIds cs) c with _ | p
    · have hroot : codeRootCond (commentIds cs) c = true := (attachTarget_none_iff _ _).mp h
      rw [hm, Finset.sum_range_succ']
      have h0 : (levelFrom (buildCommentTree cs) (buildCommentTree cs).roots 0).count c.id = 1 := by
        rw [count_level_zero cs hnd c hc, hroot, if_pos rfl]
      have hsucc : ∀ j, (levelFrom (buildCommentTree cs) (buildCommentTree cs).roots (j + 1)).count c.id = 0 := by
        intro j
        rw [count_level_succ cs hnd c hc j, h]
      rw [h0, Finset.sum_eq_zero (fun j _ => hsucc j)]
    · have hpmem : p ∈ commentIds cs := attachTarget_some_mem _ _ _ h
      rw [commentIds, List.mem_map] at hpmem
      rcases hpmem with ⟨cp, hcp, hcpid⟩
      have hrp : rank p < rank c.id := hrank c hc p h
      have htotp : (∑ j ∈ Finset.range cs.length,
          (levelFrom (buildCommentTree cs) (buildCommentTree cs).roots j).count p) = 1 := by
        have := ih cp hcp (by rw [hcpid]; omega)
        rwa [hcpid] at this
      have hnoroot : codeRootCond (commentIds cs) c = false := by
        rcases hcr : codeRootCond (commentIds cs) c with _ | _
        · rfl
        · rw [← attachTarget_none_iff] at hcr
          rw [h] at hcr
          cases hcr
      have hlast : (levelFrom (buildCommentTree cs) (buildCommentTree cs).roots m).count p = 0 := by
        rw [List.count_eq_zero]
        intro hpmem
        have h1 : m ≤ rank p := level_rank_bound cs rank hrank m p hpmem
        have h2 : rank c.id < cs.length := hbound c hc
        omega
      rw [hm, Finset.sum_range_succ']
      have h0 : (levelFrom (buildCommentTree cs) (buildCommentTree cs).roots 0).count c.id = 0 := by
        rw [count_level_zero cs hnd c hc, hnoroot]
        rfl
      have hsucc : ∀ j, (levelFrom (buildCommentTree cs) (buildCommentTree cs).roots (j + 1)).count c.id =
          (levelFrom (buildCommentTree cs) (buildCommentTree cs).roots j).count p := by
        intro j
        rw [count_level_succ cs hnd c hc j, h]
      rw [hm, Finset.sum_range_succ, hlast] at htotp
      simp only [hsucc, h0]
      omega

theorem count_forestIds (cs : List Comment) (y : String) :
    (forestIds (buildCommentTree cs) cs.length).count y =
      ∑ j ∈ Finset.range cs.length,
        (levelFrom (buildCommentTree cs) (buildCommentTree cs).roots j).count y :=
  count_flatMap_flattenFrom (buildCommentTree cs) y cs.length (buildCommentTree cs).roots

/-- C1 (counterexample): the comment with id "x" declares the parent "",
which is present in the input set, yet buildCommentTree promotes "x" to a
root, because JavaScript treats the empty-string parent reference as
falsy.  This refutes the claimed root condition (null/absent parent or
parent absent from the input set). -/
theorem rootPromotion_spec_counterexample :
    ("x" ∈ (buildCommentTree cexEmptyParentRef).roots)
    ∧ specRootCond (commentIds cexEmptyParentRef)
        { id := "x", parentCommentId := some "" } = false
    ∧ ({ id := "x", parentCommentId := some "" } : Comment) ∈ cexEmptyParentRef := by
  decide

/-- C1 (amended): buildCommentTree promotes a comment to a root exactly
when its parentCommentId is null/absent or the empty string, or the
referenced parent id is not present in the input id set; the roots appear
in input order, and empty input yields an empty forest. -/
theorem rootPromotion_characterization (cs : List Comment) :
    (buildCommentTree cs).roots =
      (cs.filter (codeRootCond (commentIds cs))).map (fun c => c.id)
    ∧ (buildCommentTree ([] : List Comment)).roots = [] :=
  ⟨buildCommentTree_roots cs, rfl⟩

/-- C2 (counterexample): the forest of buildCommentTree does not contain
every node exactly once for arbitrary inputs: on a two-comment parent
cycle (distinct ids) both nodes are attached to each other and the forest
is empty, and with a duplicated id the surviving node is pushed to the
roots twice. -/
theorem forest_everyNodeOnce_counterexample :
    ((commentIds cexParentCycle).Nodup
      ∧ (forestIds (buildCommentTree cexParentCycle) cexParentCycle.length).count "1" = 0)
    ∧ (forestIds (buildCommentTree cexDuplicateIds) cexDuplicateIds.length).count "1" = 2 := by
  decide

/-- C2 (amended): for comment lists with pairwise-distinct ids and
well-founded parent references (witnessed by a rank function that
decreases from child to attached parent and is bounded by the list
length), the forest produced by buildCommentTree contains every node
exactly once, contains only input nodes, and contains the parent of every
attached (non-root) node. -/
theorem forest_everyNodeOnce (cs : List Comment) (rank : String → Nat)
    (hnd : (commentIds cs).Nodup)
    (hrank : ∀ c ∈ cs, ∀ p ∈ commentIds cs,
      attachTarget (commentIds cs) c = some p → rank p < rank c.id)
    (hbound : ∀ c ∈ cs, rank c.id < cs.length) :
    (∀ c ∈ cs, (forestIds (buildCommentTree cs) cs.length).count c.id = 1)
    ∧ (∀ y ∈ forestIds (buildCommentTree cs) cs.length, y ∈ commentIds cs)
    ∧ (∀ c ∈ cs, ∀ p, attachTarget (commentIds cs) c = some p →
        p ∈ forestIds (buildCommentTree cs) cs.length) := by
  have hrank' : ∀ c ∈ cs, ∀ p, attachTarget (commentIds cs) c = some p → rank p < rank c.id :=
    fun c hc p hp => hrank c hc p (attachTarget_some_mem _ _ _ hp) hp
  refine ⟨?_, ?_, ?_⟩
  · intro c hc
    rw [count_forestIds]
    exact totalCount_eq_one cs rank hnd hrank' hbound cs.length c hc (hbound c hc)
  · intro y hy
    by_contra hmem
    have hz : (forestIds (buildCommentTree cs) cs.length).count y = 0 := by
      rw [count_forestIds]
      apply Finset.sum_eq_zero
      intro j _
      rw [List.count_eq_zero]
      intro hyl
      exact hmem (level_mem_ids cs j y hyl)
    rw [List.count_eq_zero] at hz
    exact hz hy
  · intro c hc p hp
    have hpmem : p ∈ commentIds cs := attachTarget_some_mem _ _ _ hp
    rw [commentIds, List.mem_map] at hpmem
    rcases hpmem with ⟨cp, hcp, hcpid⟩
    rw [← List.count_pos_iff, count_forestIds]
    have := totalCount_eq_one cs rank hnd hrank' hbound cs.length cp hcp (hbound cp hcp)
    rw [hcpid] at this
    omega

theorem mem_insertByKeyDesc (key : α → Nat) (x z : α) :
    ∀ (l : List α), z ∈ insertByKeyDesc key x l ↔ z = x ∨ z ∈ l := by
  intro l
  induction l with
  | nil => simp [insertByKeyDesc]
  | cons y ys ih =>
    rw [insertByKeyDesc]
    by_cases h : key y ≤ key x
    · simp [h]
    · rw [if_neg h]
      simp only [List.mem_cons, ih]
      tauto

theorem insertByKeyDesc_pairwise (key : α → Nat) (x : α) :
    ∀ (l : List α), l.Pairwise (fun a b => key b ≤ key a) →
      (insertByKeyDesc key x l).Pairwise (fun a b => key b ≤ key a) := by
  intro l
  induction l with
  | nil =>
    intro _
    simp [insertByKeyDesc]
  | cons y ys ih =>
    intro h
    rw [List.pairwise_cons] at h
    rcases h with ⟨hy, hys⟩
    rw [insertByKeyDesc]
    by_cases hxy : key y ≤ key x
    · rw [if_pos hxy, List.pairwise_cons]
      refine ⟨?_, by rw [List.pairwise_cons]; exact ⟨hy, hys⟩⟩
      intro z hz
      rcases List.mem_cons.mp hz with rfl | hz
      · exact hxy
      · exact le_trans (hy z hz) hxy
    · rw [if_neg hxy, List.pairwise_cons]
      refine ⟨?_, ih hys⟩
      intro z hz
      rcases (mem_insertByKeyDesc key x z ys).mp hz with rfl | hz
      · omega
      · exact hy z hz

/-- The stable descending sort is sorted: keys are non-increasing along
the output. -/
theorem sortByKeyDesc_pairwise (key : α → Nat) (l : List α) :
    (sortByKeyDesc key l).Pairwise (fun a b => key b ≤ key a) := by
  induction l with
  | nil => simp [sortByKeyDesc]
  | cons x l ih => exact insertByKeyDesc_pairwise key x _ ih

theorem insertByKeyDesc_filter_eq (key : α → Nat) (k : Nat) (x : α) :
    ∀ (l : List α),
      (insertByKeyDesc key x l).filter (fun a => key a == k) =
        if key x = k then x :: l.filter (fun a => key a == k)
        else l.filter (fun a => key a == k) := by
  intro l
  induction l with
  | nil =>
    rw [insertByKeyDesc]
    by_cases h : key x = k
    · simp [h]
    · simp [h]
  | cons y ys ih =>
    rw [insertByKeyDesc]
    by_cases hxy : key y ≤ key x
    · rw [if_pos hxy]
      by_cases h : key x = k
      · simp [h]
      · simp [h]
    · rw [if_neg hxy, List.filter_cons, List.filter_cons, ih]
      by_cases hyk : key y = k
      · have hxk : ¬ key x = k := by omega
        simp [hyk, hxk]
      · by_cases hxk : key x = k
        · simp [hyk, hxk]
        · simp [hyk, hxk]

/-- Stability of the descending sort: the elements with any fixed key
appear in the output exactly as they appear in the input. -/
theorem sortByKeyDesc_filter_eq (key : α → Nat) (k : Nat) (l : List α) :
    (sortByKeyDesc key l).filter (fun a => key a == k) = l.filter (fun a => key a == k) := by
  induction l with
  | nil => rfl
  | cons x l ih =>
    show (insertByKeyDesc key x (sortByKeyDesc key l)).filter (fun a => key a == k) = _
    rw [insertByKeyDesc_filter_eq, List.filter_cons, ih]
    by_cases h : key x = k
    · simp [h]
    · simp [h]

theorem nodeMap_entry_id_aux (cs : List Comment) :
    ∀ (m : List (String × NodeData)),
      (∀ k nd, mapLookup k m = some nd → nd.id = k) →
      ∀ k nd, mapLookup k (cs.foldl (fun m c => mapSet m c.id (mkNode c)) m) = some nd → nd.id = k := by
  induction cs with
  | nil =>
    intro m hm
    exact hm
  | cons c cs ih =>
    intro m hm
    rw [List.foldl_cons]
    apply ih
    intro k nd h
    rw [mapSet, mapLookup] at h
    by_cases hk : c.id = k
    · rw [if_pos hk] at h
      cases h
      exact hk
    · rw [if_neg hk] at h
      exact hm k nd h

/-- Every node-map entry keys its own id. -/
theorem nodeMap_entry_id (cs : List Comment) (k : String) (nd : NodeData)
    (h : mapLookup k (buildCommentTree cs).nodeMap = some nd) : nd.id = k := by
  rcases hcs : cs with _ | ⟨c, cs'⟩
  · rw [hcs] at h
    cases h
  · have hne : cs.isEmpty = false := by rw [hcs]; rfl
    simp only [buildCommentTree, hne, Bool.false_eq_true, if_false] at h
    exact nodeMap_entry_id_aux cs [] (fun k nd h => by cases h) k nd h

theorem payloadOf_root_id (cs : List Comment) (r : String)
    (hr : r ∈ (buildCommentTree cs).roots) : (payloadOf (buildCommentTree cs) r).id = r := by
  have hmem : r ∈ commentIds cs := by
    rw [buildCommentTree_roots, List.mem_map] at hr
    rcases hr with ⟨c, hc, rfl⟩
    exact List.mem_map_of_mem (fun c => c.id) (List.mem_of_mem_filter hc)
  have hsome : (mapLookup r (buildCommentTree cs).nodeMap).isSome := by
    rw [nodeMap_has_iff]
    simpa [commentIds] using hmem
  rcases hnd : mapLookup r (buildCommentTree cs).nodeMap with _ | nd
  · rw [hnd] at hsome
    cases hsome
  · rw [payloadOf, hnd, Option.getD_some]
    exact nodeMap_entry_id cs r nd hnd

/-- The pre-sort summaries carry the filtered roots in root order. -/
theorem threadSummaries_ids (cs : List Comment) (status : String) :
    (threadSummaries cs status).map (fun s => s.node.id) =
      (buildCommentTree cs).roots.filter
        (fun r => (payloadOf (buildCommentTree cs) r).resolutionStatus == some status) := by
  rw [threadSummaries, List.map_map]
  have : ∀ r ∈ (buildCommentTree cs).roots.filter
      (fun r => (payloadOf (buildCommentTree cs) r).resolutionStatus == some status),
      (payloadOf (buildCommentTree cs) r).id = r := by
    intro r hr
    exact payloadOf_root_id cs r (List.mem_of_mem_filter hr)
  calc ((buildCommentTree cs).roots.filter _).map _
      = ((buildCommentTree cs).roots.filter
          (fun r => (payloadOf (buildCommentTree cs) r).resolutionStatus == some status)).map
          (fun r => r) := List.map_congr_left (fun r hr => this r hr)
    _ = _ := List.map_id _

theorem threadSummariesHW_ids (cs : List Comment) (status : String) :
    (threadSummariesHW cs status).map (fun s => s.node.id) =
      (if status = "all" then (buildCommentTree cs).roots
       else (buildCommentTree cs).roots.filter
        (fun r => (payloadOf (buildCommentTree cs) r).resolutionStatus == some status)) := by
  rw [threadSummariesHW, List.map_map]
  by_cases hall : status = "all"
  · simp only [if_pos hall]
    calc ((buildCommentTree cs).roots).map _
        = ((buildCommentTree cs).roots).map (fun r => r) :=
          List.map_congr_left (fun r hr => payloadOf_root_id cs r hr)
      _ = _ := List.map_id _
  · simp only [if_neg hall]
    calc ((buildCommentTree cs).roots.filter _).map _
        = ((buildCommentTree cs).roots.filter
            (fun r => (payloadOf (buildCommentTree cs) r).resolutionStatus == some status)).map
            (fun r => r) :=
          List.map_congr_left (fun r hr => payloadOf_root_id cs r (List.mem_of_mem_filter hr))
      _ = _ := List.map_id _

theorem roots_sublist_commentIds (cs : List Comment) :
    ((buildCommentTree cs).roots).Sublist (commentIds cs) := by
  rw [buildCommentTree_roots]
  exact List.Sublist.map (fun c => c.id) (List.filter_sublist cs)

theorem rankParentsByReplies_eq_sort (cs : List Comment) (status : String) :
    rankParentsByReplies cs status =
      sortByKeyDesc (fun s => s.threadCount) (threadSummaries cs status) := by
  rw [rankParentsByReplies]
  by_cases h : cs.isEmpty
  · rw [if_pos h]
    rw [List.isEmpty_iff] at h
    subst h
    rfl
  · rw [if_neg h]

theorem rankParentsByRepliesHW_eq_sort (cs : List Comment) (status : String) :
    rankParentsByRepliesHW cs status =
      sortByKeyDesc (fun s => s.replyCount) (threadSummariesHW cs status) := by
  rw [rankParentsByRepliesHW]
  by_cases h : cs.isEmpty
  · rw [if_pos h]
    rw [List.isEmpty_iff] at h
    subst h
    rw [threadSummariesHW]
    by_cases hall : status = "all"
    · simp [hall, buildCommentTree, sortByKeyDesc]
    · simp [hall, buildCommentTree, sortByKeyDesc]
  · rw [if_neg h]

/-- C3 (confirmed): for every comment list and status, both variants of
rankParentsByReplies return a list sorted in non-increasing order of
thread size, threads of equal size stay in the pre-sort summary order,
and the pre-sort summaries list the surviving roots in input order (its
id image is a sublist of the input ids), so equal-size threads appear in
the order their roots appeared in the input. -/
theorem rank_sorted_stable (comments : List Comment) (status : String) :
    (rankParentsByReplies comments status).Pairwise (fun a b => b.threadCount ≤ a.threadCount)
    ∧ (∀ k, (rankParentsByReplies comments status).filter (fun s => s.threadCount == k) =
        (threadSummaries comments status).filter (fun s => s.threadCount == k))
    ∧ ((threadSummaries comments status).map (fun s => s.node.id)).Sublist (commentIds comments)
    ∧ (rankParentsByRepliesHW comments status).Pairwise (fun a b => b.replyCount ≤ a.replyCount)
    ∧ (∀ k, (rankParentsByRepliesHW comments status).filter (fun s => s.replyCount == k) =
        (threadSummariesHW comments status).filter (fun s => s.replyCount == k))
    ∧ ((threadSummariesHW comments status).map (fun s => s.node.id)).Sublist (commentIds comments) := by
  refine ⟨?_, ?_, ?_, ?_, ?_, ?_⟩
  · rw [rankParentsByReplies_eq_sort]
    exact sortByKeyDesc_pairwise _ _
  · intro k
    rw [rankParentsByReplies_eq_sort]
    exact sortByKeyDesc_filter_eq _ k _
  · rw [threadSummaries_ids]
    exact List.Sublist.trans (List.filter_sublist _) (roots_sublist_commentIds comments)
  · rw [rankParentsByRepliesHW_eq_sort]
    exact sortByKeyDesc_pairwise _ _
  · intro k
    rw [rankParentsByRepliesHW_eq_sort]
    exact sortByKeyDesc_filter_eq _ k _
  · rw [threadSummariesHW_ids]
    by_cases hall : status = "all"
    · rw [if_pos hall]
      exact roots_sublist_commentIds comments
    · rw [if_neg hall]
      exact List.Sublist.trans (List.filter_sublist _) (roots_sublist_commentIds comments)

/-- Scores are positional: the score column of calculateScore is a pure
function of the index and the length. -/
theorem calculateScore_scores (l : List α) :
    (calculateScore l).map (fun p => p.2) =
      (List.range l.length).map (fun i => calculateScoreAt i l.length) := by
  rw [calculateScore]
  by_cases h : l.isEmpty
  · rw [if_pos h]
    rw [List.isEmpty_iff] at h
    subst h
    rfl
  · rw [if_neg h, List.map_map]
    have : ((fun p => p.2) ∘ fun p : Nat × α => (p.2, calculateScoreAt p.1 l.length)) =
        ((fun i => calculateScoreAt i l.length) ∘ Prod.fst) := rfl
    rw [this, ← List.map_map, List.enum_map_fst]

theorem calculateScore_filter_count (l : List α) (q : Nat → Bool) :
    ((calculateScore l).filter (fun p => q p.2)).length =
      ((List.range l.length).filter (fun i => q (calculateScoreAt i l.length))).length := by
  rw [calculateScore]
  by_cases h : l.isEmpty
  · rw [if_pos h]
    rw [List.isEmpty_iff] at h
    subst h
    rfl
  · rw [if_neg h, ← List.countP_eq_length_filter, ← List.countP_eq_length_filter,
      List.countP_map]
    have h1 : ((fun p : α × Nat => q p.2) ∘ fun p : Nat × α => (p.2, calculateScoreAt p.1 l.length)) =
        ((fun i => q (calculateScoreAt i l.length)) ∘ Prod.fst) := rfl
    rw [h1, ← List.countP_map, List.enum_map_fst]

theorem length_filter_range_window (a b : Nat) :
    ∀ (n : Nat), ((List.range n).filter (fun i => a ≤ i && i < b)).length = min b n - min a n := by
  intro n
  induction n with
  | zero => simp
  | succ n ih =>
    rw [List.range_succ, List.filter_append, List.length_append, ih]
    by_cases h1 : a ≤ n
    · by_cases h2 : n < b
      · simp [h1, h2]
        omega
      · simp only [List.filter_cons, List.filter_nil, decide_eq_false h2, Bool.and_false,
          Bool.false_eq_true, if_false, List.length_nil]
        omega
    · simp only [List.filter_cons, List.filter_nil, decide_eq_false h1, Bool.false_and,
        Bool.false_eq_true, if_false, List.length_nil]
      omega

theorem scoreAt_eq3 (n i : Nat) (_hi : i < n) :
    (calculateScoreAt i n == 3) = (0 ≤ i && i < (n + 3) / 4) := by
  unfold calculateScoreAt
  split_ifs with h1 h2 h3 <;> simp <;> omega

theorem scoreAt_eq2 (n i : Nat) (_hi : i < n) :
    (calculateScoreAt i n == 2) = ((n + 3) / 4 ≤ i && i < (2 * n + 3) / 4) := by
  unfold calculateScoreAt
  split_ifs with h1 h2 h3 <;> simp <;> omega

theorem scoreAt_eq1 (n i : Nat) (_hi : i < n) :
    (calculateScoreAt i n == 1) = ((2 * n + 3) / 4 ≤ i && i < (3 * n + 3) / 4) := by
  unfold calculateScoreAt
  split_ifs with h1 h2 h3 <;> simp <;> omega

theorem scoreAt_eq0 (n i : Nat) (_hi : i < n) :
    (calculateScoreAt i n == 0) = ((3 * n + 3) / 4 ≤ i && i < n) := by
  unfold calculateScoreAt
  split_ifs with h1 h2 h3 <;> simp <;> omega

theorem scoreAt_ge4 (n i s : Nat) :
    (calculateScoreAt i n == s + 4) = false := by
  unfold calculateScoreAt
  split_ifs with h1 h2 h3 <;> simp

theorem count_bucket_aux (l : List α) (s a b : Nat)
    (hab : ∀ i, i < l.length → ((calculateScoreAt i l.length == s) = (a ≤ i && i < b))) :
    ((calculateScore l).filter (fun p => p.2 == s)).length = min b l.length - min a l.length := by
  rw [calculateScore_filter_count l (fun v => v == s), ← length_filter_range_window a b l.length]
  congr 1
  apply List.filter_congr
  intro i hi
  exact hab i (List.mem_range.mp hi)

theorem count_score_bucket3 (l : List α) :
    ((calculateScore l).filter (fun p => p.2 == 3)).length = (l.length + 3) / 4 := by
  rw [count_bucket_aux l 3 0 ((l.length + 3) / 4) (fun i hi => scoreAt_eq3 l.length i hi)]
  omega

theorem count_score_bucket2 (l : List α) :
    ((calculateScore l).filter (fun p => p.2 == 2)).length =
      (2 * l.length + 3) / 4 - (l.length + 3) / 4 := by
  rw [count_bucket_aux l 2 ((l.length + 3) / 4) ((2 * l.length + 3) / 4)
    (fun i hi => scoreAt_eq2 l.length i hi)]
  omega

theorem count_score_bucket1 (l : List α) :
    ((calculateScore l).filter (fun p => p.2 == 1)).length =
      (3 * l.length + 3) / 4 - (2 * l.length + 3) / 4 := by
  rw [count_bucket_aux l 1 ((2 * l.length + 3) / 4) ((3 * l.length + 3) / 4)
    (fun i hi => scoreAt_eq1 l.length i hi)]
  omega

theorem count_score_bucket0 (l : List α) :
    ((calculateScore l).filter (fun p => p.2 == 0)).length =
      l.length - (3 * l.length + 3) / 4 := by
  rw [count_bucket_aux l 0 ((3 * l.length + 3) / 4) l.length
    (fun i hi => scoreAt_eq0 l.length i hi)]
  omega

theorem count_score_bucket_ge4 (l : List α) (s : Nat) :
    ((calculateScore l).filter (fun p => p.2 == s + 4)).length = 0 := by
  rw [calculateScore_filter_count l (fun v => v == s + 4), List.length_eq_zero,
    List.filter_eq_nil_iff]
  intro i _
  rw [scoreAt_ge4 l.length i s]
  simp

/-- C4 (counterexample): on a ranked list of five threads the tier-2
bucket of calculateScore holds a single thread, not the claimed
ceiling of N / 4 = 2, so the tiers do not partition into
ceiling-of-N/4-sized buckets. -/
theorem score_bucket_size_counterexample :
    witRanked5.length = 5
    ∧ (witRanked5.length + 3) / 4 = 2
    ∧ ((calculateScore witRanked5).filter (fun p => p.2 == 2)).length = 1 := by
  decide

/-- C4 (amended): calculateScore assigns tiers by quartile of position
only: the tier column is a function of index and length, so re-scoring a
list whose thread sizes are all scaled by a constant factor yields
identical tiers; the four tiers partition the list, the top tier (3)
holds exactly ceiling of N / 4 threads, and every tier holds at most
ceiling of N / 4 threads. -/
theorem score_tiers_positional (l : List RankedThread) (k : Nat) :
    ((calculateScore l).map (fun p => p.2) =
      (List.range l.length).map (fun i => calculateScoreAt i l.length))
    ∧ ((calculateScore (l.map (scaleThread k))).map (fun p => p.2) =
        (calculateScore l).map (fun p => p.2))
    ∧ ((calculateScore l).filter (fun p => p.2 == 3)).length = (l.length + 3) / 4
    ∧ (∀ s : Nat, ((calculateScore l).filter (fun p => p.2 == s)).length ≤ (l.length + 3) / 4)
    ∧ (((calculateScore l).filter (fun p => p.2 == 3)).length
        + ((calculateScore l).filter (fun p => p.2 == 2)).length
        + ((calculateScore l).filter (fun p => p.2 == 1)).length
        + ((calculateScore l).filter (fun p => p.2 == 0)).length = l.length) := by
  refine ⟨calculateScore_scores l, ?_, count_score_bucket3 l, ?_, ?_⟩
  · rw [calculateScore_scores, calculateScore_scores, List.length_map]
  · intro s
    rcases s with _ | _ | _ | _ | s
    · rw [count_score_bucket0]
      omega
    · rw [count_score_bucket1]
      omega
    · rw [count_score_bucket2]
      omega
    · rw [count_score_bucket3]
    · rw [count_score_bucket_ge4]
      omega
  · rw [count_score_bucket3, count_score_bucket2, count_score_bucket1, count_score_bucket0]
    omega

theorem mapLookup_none_iff (k : String) :
    ∀ (m : List (String × α)), mapLookup k m = none ↔ ¬ k ∈ m.map (fun pr => pr.1) := by
  intro m
  induction m with
  | nil => simp [mapLookup]
  | cons pr m ih =>
    rcases pr with ⟨k', v⟩
    rw [mapLookup]
    by_cases h : k' = k
    · subst h
      simp
    · simp only [if_neg h, ih, List.map_cons, List.mem_cons]
      constructor
      · intro hk hor
        rcases hor with rfl | hk2
        · exact h rfl
        · exact hk hk2
      · intro hk hk2
        exact hk (Or.inr hk2)

theorem mapLookup_mapDelete_self (k : String) (m : List (String × α)) :
    mapLookup k (mapDelete k m) = none := by
  induction m with
  | nil => rfl
  | cons pr m ih =>
    rcases pr with ⟨k', v⟩
    rw [mapDelete, List.filter_cons]
    by_cases h : k' = k
    · have hc : (decide ¬ ((k', v).1 = k)) = false := by simp [h]
      rw [hc]
      simp only [Bool.false_eq_true, if_false]
      exact ih
    · have hc : (decide ¬ ((k', v).1 = k)) = true := by simp [h]
      rw [hc, if_pos rfl, mapLookup, if_neg h]
      exact ih

theorem mapLookup_mapDelete_ne (k k' : String) (h : ¬ k' = k) (m : List (String × α)) :
    mapLookup k' (mapDelete k m) = mapLookup k' m := by
  induction m with
  | nil => rfl
  | cons pr m ih =>
    rcases pr with ⟨k0, v⟩
    rw [mapDelete, List.filter_cons]
    by_cases h0 : k0 = k
    · have hc : (decide ¬ ((k0, v).1 = k)) = false := by simp [h0]
      rw [hc]
      simp only [Bool.false_eq_true, if_false]
      have h01 : ¬ k0 = k' := by
        intro hh
        exact h (by rw [← hh, h0])
      rw [show mapLookup k' ((k0, v) :: m) = mapLookup k' m from by rw [mapLookup, if_neg h01]]
      exact ih
    · have hc : (decide ¬ ((k0, v).1 = k)) = true := by simp [h0]
      rw [hc, if_pos rfl, mapLookup, mapLookup]
      by_cases h1 : k0 = k'
      · rw [if_pos h1, if_pos h1]
      · rw [if_neg h1, if_neg h1]
        exact ih

/-- A getUserInfo call never touches the result cache. -/
theorem getUserInfoCall_cache (s : CacheState) (idOpt : Option String) :
    (getUserInfoCall s idOpt).2.1.cache = s.cache := by
  rcases idOpt with _ | a
  · rfl
  · by_cases ha : a = ""
    · simp [getUserInfoCall, ha]
    · rcases hc : mapLookup a s.cache with _ | v
      · rcases hp : mapLookup a s.pending with _ | pid
        · simp [getUserInfoCall, ha, hc, hp]
        · simp [getUserInfoCall, ha, hc, hp]
      · simp [getUserInfoCall, ha, hc]

theorem cacheInv_init : CacheInv initCacheState := by
  refine ⟨List.nodup_nil, ?_, ?_⟩ <;>
    intro a h <;> cases h

theorem cacheInv_step (s s' : CacheState) (h : CacheStep s s') (hinv : CacheInv s) :
    CacheInv s' := by
  cases h with
  | call idOpt =>
    rcases idOpt with _ | a
    · exact hinv
    · by_cases ha : a = ""
      · simp only [getUserInfoCall, if_pos ha]
        exact hinv
      · rcases hc : mapLookup a s.cache with _ | v
        · rcases hp : mapLookup a s.pending with _ | pid
          · simp only [getUserInfoCall, if_neg ha, hc, hp]
            refine ⟨?_, ?_, ?_⟩
            · rw [mapSet, List.map_cons, List.nodup_cons]
              exact ⟨(mapLookup_none_iff a s.pending).mp hp, hinv.1⟩
            · intro b hb
              rw [mapSet, mapLookup] at hb
              by_cases hab : a = b
              · subst hab
                exact hc
              · rw [if_neg hab] at hb
                exact hinv.2.1 b hb
            · intro b hb
              rw [mapSet, mapLookup] at hb
              by_cases hab : a = b
              · subst hab
                exact ha
              · rw [if_neg hab] at hb
                exact hinv.2.2 b hb
          · simp only [getUserInfoCall, if_neg ha, hc, hp]
            exact hinv
        · simp only [getUserInfoCall, if_neg ha, hc]
          exact hinv
  | settle a res pid hp =>
    have hkey : ((mapDelete a s.pending).map (fun pr => pr.1)).Nodup :=
      List.Nodup.sublist (List.Sublist.map _ (List.filter_sublist s.pending)) hinv.1
    have hp2 : ∀ (v0 : Option UserData) b, (mapLookup b (mapDelete a s.pending)).isSome →
        mapLookup b (mapSet s.cache a v0) = none ∧ ¬ (b = "") := by
      intro v0 b hb
      by_cases hab : b = a
      · subst hab
        rw [mapLookup_mapDelete_self] at hb
        cases hb
      · rw [mapLookup_mapDelete_ne a b hab] at hb
        refine ⟨?_, hinv.2.2 b hb⟩
        rw [mapSet, mapLookup, if_neg (fun hh => hab hh.symm)]
        exact hinv.2.1 b hb
    rcases res with u | _
    · exact ⟨hkey, fun b hb => (hp2 (some u) b hb).1, fun b hb => (hp2 (some u) b hb).2⟩
    · exact ⟨hkey, fun b hb => (hp2 none b hb).1, fun b hb => (hp2 none b hb).2⟩

theorem cacheReachable_inv (s : CacheState) (h : CacheReachable s) : CacheInv s := by
  induction h with
  | refl => exact cacheInv_init
  | tail h1 hstep ih => exact cacheInv_step _ _ hstep ih

/-- Cached values persist across any further cache activity. -/
theorem cache_persist (a : String) (v : Option UserData) (s s' : CacheState)
    (h : Relation.ReflTransGen CacheStep s s') (hinv : CacheInv s)
    (hv : mapLookup a s.cache = some v) :
    mapLookup a s'.cache = some v ∧ CacheInv s' := by
  induction h with
  | refl => exact ⟨hv, hinv⟩
  | tail h1 hstep ih =>
    rcases ih with ⟨hv', hinv'⟩
    refine ⟨?_, cacheInv_step _ _ hstep hinv'⟩
    cases hstep with
    | call idOpt =>
      rw [getUserInfoCall_cache]
      exact hv'
    | settle b res pid hpend =>
      have hb : ¬ b = a := by
        intro hba
        subst hba
        have := hinv'.2.1 b (by rw [hpend]; rfl)
        rw [this] at hv'
        cases hv'
      rcases res with u | _
      · rw [show (settleFetch _ b (FetchOutcome.ok u)).1.cache = mapSet _ b (some u) from rfl,
          mapSet, mapLookup, if_neg hb]
        exact hv'
      · rw [show (settleFetch _ b FetchOutcome.fail).1.cache = mapSet _ b none from rfl,
          mapSet, mapLookup, if_neg hb]
        exact hv'

/-- C5 (confirmed): in every reachable cache state the pending keys are
duplicate-free - at most one lookup in flight per id - and a getUserInfo
call for an id whose earlier lookup is still pending returns that same
pending promise, leaves the state unchanged and issues no new underlying
lookup. -/
theorem getUser_single_flight (s : CacheState) (hs : CacheReachable s)
    (a : String) (pid : Nat) (hp : mapLookup a s.pending = some pid) :
    (s.pending.map (fun pr => pr.1)).Nodup
    ∧ getUserInfoCall s (some a) = (.pendingHit pid, s, []) := by
  have hinv := cacheReachable_inv s hs
  refine ⟨hinv.1, ?_⟩
  have hsome : (mapLookup a s.pending).isSome := by rw [hp]; rfl
  have ha : ¬ a = "" := hinv.2.2 a hsome
  have hc : mapLookup a s.cache = none := hinv.2.1 a hsome
  simp [getUserInfoCall, ha, hc, hp]

/-- Witness for C5: the second call for "u1" while the first is pending
returns the stored promise (id 0) and issues nothing. -/
theorem getUser_single_flight_witness :
    (CacheReachable witCache1 ∧ mapLookup "u1" witCache1.pending = some 0)
    ∧ getUserInfoCall witCache1 (some "u1") = (.pendingHit 0, witCache1, []) :=
  have hreach : CacheReachable witCache1 :=
    Relation.ReflTransGen.single (CacheStep.call initCacheState (some "u1"))
  have hp : mapLookup "u1" witCache1.pending = some 0 := by decide
  ⟨⟨hreach, hp⟩, (getUser_single_flight witCache1 hreach "u1" 0 hp).2⟩

/-- C6 (confirmed): getUserInfo never rejects: when the pending lookup
for an id fails, the promise resolves to the null placeholder, the
placeholder is cached, every state reachable afterwards still caches it
and a getUserInfo call there returns the same placeholder without issuing
a lookup, and the enriched record built from the placeholder has
displayName "Unknown User" and a null avatar. -/
theorem getUser_failure_placeholder (s : CacheState) (hs : CacheReachable s)
    (a : String) (pid : Nat) (hp : mapLookup a s.pending = some pid) :
    (settleFetch s a .fail).2 = none
    ∧ mapLookup a (settleFetch s a .fail).1.cache = some none
    ∧ (∀ s', Relation.ReflTransGen CacheStep (settleFetch s a .fail).1 s' →
        mapLookup a s'.cache = some none
        ∧ getUserInfoCall s' (some a) = (.cached none, s', []))
    ∧ (∀ defaultAvatar baseUrl,
        enrichFromUser defaultAvatar baseUrl a none =
          { userId := some a, displayName := "Unknown User", avatarUrl := none }) := by
  have hinv := cacheReachable_inv s hs
  have hsome : (mapLookup a s.pending).isSome := by rw [hp]; rfl
  have ha : ¬ a = "" := hinv.2.2 a hsome
  have hinv' : CacheInv (settleFetch s a .fail).1 :=
    cacheInv_step _ _ (CacheStep.settle s a .fail pid hp) hinv
  have hcached : mapLookup a (settleFetch s a .fail).1.cache = some none := by
    show mapLookup a (mapSet s.cache a none) = some none
    rw [mapSet, mapLookup, if_pos rfl]
  refine ⟨rfl, hcached, ?_, fun _ _ => rfl⟩
  intro s' hs'
  rcases cache_persist a none _ _ hs' hinv' hcached with ⟨hv', -⟩
  refine ⟨hv', ?_⟩
  simp [getUserInfoCall, ha, hv']

/-- Witness for C6: failing the pending lookup for "u1" resolves null,
caches null, and the next call returns the cached placeholder with no
lookup. -/
theorem getUser_failure_placeholder_witness :
    (mapLookup "u1" witCache1.pending = some 0)
    ∧ (settleFetch witCache1 "u1" FetchOutcome.fail).2 = none
    ∧ getUserInfoCall (settleFetch witCache1 "u1" FetchOutcome.fail).1 (some "u1") =
        (.cached none, (settleFetch witCache1 "u1" FetchOutcome.fail).1, []) :=
  have hreach : CacheReachable witCache1 :=
    Relation.ReflTransGen.single (CacheStep.call initCacheState (some "u1"))
  have hp : mapLookup "u1" witCache1.pending = some 0 := by decide
  have h := getUser_failure_placeholder witCache1 hreach "u1" 0 hp
  ⟨hp, h.1, (h.2.2.1 _ Relation.ReflTransGen.refl).2⟩

theorem jsSetDedup_fold_aux :
    ∀ (l : List String) (acc : List String), acc.Nodup →
      (l.foldl (fun acc x => if x ∈ acc then acc else acc ++ [x]) acc).Nodup
      ∧ (∀ x, x ∈ l.foldl (fun acc x => if x ∈ acc then acc else acc ++ [x]) acc ↔
          x ∈ acc ∨ x ∈ l) := by
  intro l
  induction l with
  | nil =>
    intro acc hacc
    exact ⟨hacc, fun x => by simp⟩
  | cons y l ih =>
    intro acc hacc
    rw [List.foldl_cons]
    by_cases hy : y ∈ acc
    · rw [if_pos hy]
      rcases ih acc hacc with ⟨h1, h2⟩
      refine ⟨h1, fun x => ?_⟩
      rw [h2 x, List.mem_cons]
      constructor
      · rintro (hx | hx)
        · exact Or.inl hx
        · exact Or.inr (Or.inr hx)
      · rintro (hx | rfl | hx)
        · exact Or.inl hx
        · exact Or.inl hy
        · exact Or.inr hx
    · rw [if_neg hy]
      have hacc' : (acc ++ [y]).Nodup := by
        rw [List.nodup_append]
        exact ⟨hacc, List.nodup_singleton y, by simpa using hy⟩
      rcases ih (acc ++ [y]) hacc' with ⟨h1, h2⟩
      refine ⟨h1, fun x => ?_⟩
      rw [h2 x, List.mem_append, List.mem_singleton, List.mem_cons]
      tauto

theorem jsSetDedup_nodup (l : List String) : (jsSetDedup l).Nodup :=
  (jsSetDedup_fold_aux l [] List.nodup_nil).1

theorem mem_jsSetDedup (l : List String) (x : String) : x ∈ jsSetDedup l ↔ x ∈ l := by
  rw [jsSetDedup, (jsSetDedup_fold_aux l [] List.nodup_nil).2 x]
  simp

theorem mapLookup_zip_map (f : String → β) :
    ∀ (l : List String) (a : String),
      mapLookup a (l.zip (l.map f)) = if a ∈ l then some (f a) else none := by
  intro l
  induction l with
  | nil => intro a; simp [mapLookup]
  | cons x l ih =>
    intro a
    rw [List.map_cons, List.zip_cons_cons, mapLookup]
    by_cases hxa : x = a
    · subst hxa
      simp
    · rw [if_neg hxa, ih a]
      have : (a ∈ x :: l) ↔ (a ∈ l) := by
        rw [List.mem_cons]
        constructor
        · rintro (rfl | h)
          · exact absurd rfl hxa
          · exact h
        · exact Or.inr
      by_cases hal : a ∈ l
      · rw [if_pos hal, if_pos (this.mpr hal)]
      · rw [if_neg hal, if_neg (fun hh => hal (this.mp hh))]

/-- The getUserInfo starts performed by getMultipleUserInfo over a
duplicate-free id list issue exactly one lookup per id that is truthy,
uncached and not already pending. -/
theorem issue_fold_chars (s : CacheState) :
    ∀ (L : List String) (st : CacheState) (acc : List String),
      L.Nodup → st.cache = s.cache →
      (∀ a ∈ L, mapLookup a st.pending = mapLookup a s.pending) →
      (L.foldl (fun (acc : CacheState × List String) a =>
          let r := getUserInfoCall acc.1 (some a)
          (r.2.1, acc.2 ++ r.2.2)) (st, acc)).2 =
        acc ++ L.filter (freshLookupId s) := by
  intro L
  induction L with
  | nil =>
    intro st acc _ _ _
    simp
  | cons a L ih =>
    intro st acc hnd hcache hpend
    rw [List.nodup_cons] at hnd
    rcases hnd with ⟨haL, hnd⟩
    rw [List.foldl_cons, List.filter_cons]
    by_cases ha : a = ""
    · have hfresh : freshLookupId s a = false := by rw [freshLookupId, if_pos ha]
      rw [hfresh]
      simp only [Bool.false_eq_true, if_false]
      have hcall : getUserInfoCall st (some a) = (.nullId, st, []) := by
        simp [getUserInfoCall, ha]
      rw [hcall]
      simp only [List.append_nil]
      exact ih st acc hnd hcache (fun b hb => hpend b (List.mem_cons_of_mem a hb))
    · rcases hc : mapLookup a st.cache with _ | v
      · rcases hp : mapLookup a st.pending with _ | pid
        · have hfresh : freshLookupId s a = true := by
            rw [freshLookupId, if_neg ha, ← hcache, hc, ← hpend a (List.mem_cons_self a L), hp]
            rfl
          rw [hfresh, if_pos rfl]
          have hcall : getUserInfoCall st (some a) =
              (.started st.nextPromiseId,
                { st with pending := mapSet st.pending a st.nextPromiseId,
                          nextPromiseId := st.nextPromiseId + 1 },
                [a]) := by
            simp [getUserInfoCall, ha, hc, hp]
          rw [hcall]
          have := ih { st with pending := mapSet st.pending a st.nextPromiseId,
                               nextPromiseId := st.nextPromiseId + 1 } (acc ++ [a]) hnd hcache
            (fun b hb => by
              have hba : ¬ a = b := fun hh => haL (hh ▸ hb)
              show mapLookup b (mapSet st.pending a st.nextPromiseId) = mapLookup b s.pending
              rw [mapSet, mapLookup, if_neg hba]
              exact hpend b (List.mem_cons_of_mem a hb))
          rw [this, List.append_assoc]
          rfl
        · have hfresh : freshLookupId s a = false := by
            rw [freshLookupId, if_neg ha, ← hcache, hc, ← hpend a (List.mem_cons_self a L), hp]
            rfl
          rw [hfresh]
          simp only [Bool.false_eq_true, if_false]
          have hcall : getUserInfoCall st (some a) = (.pendingHit pid, st, []) := by
            simp [getUserInfoCall, ha, hc, hp]
          rw [hcall]
          simp only [List.append_nil]
          exact ih st acc hnd hcache (fun b hb => hpend b (List.mem_cons_of_mem a hb))
      · have hfresh : freshLookupId s a = false := by
          rw [freshLookupId, if_neg ha, ← hcache, hc]
          rfl
        rw [hfresh]
        simp only [Bool.false_eq_true, if_false]
        have hcall : getUserInfoCall st (some a) = (.cached v, st, []) := by
          simp [getUserInfoCall, ha, hc]
        rw [hcall]
        simp only [List.append_nil]
        exact ih st acc hnd hcache (fun b hb => hpend b (List.mem_cons_of_mem a hb))

/-- C7 (confirmed): getMultipleUserInfo and getMultipleEnrichedUserInfo
return a list of the same length as the input whose entry at each index
is determined by the id at that index - null ids map to the null
placeholder at the same index, every truthy id maps to its awaited user
value (enriched at the enriched level) - while the underlying network
lookups of one call are pairwise distinct non-null input ids; from a
fresh cache exactly the distinct truthy ids are looked up, once each. -/
theorem getMany_order_dedup (s : CacheState) (env : String → FetchOutcome)
    (ids : List (Option String)) (defaultAvatar baseUrl : String) :
    ((getMultipleUserInfo s env ids).1 =
      ids.map (fun idOpt =>
        match idOpt with
        | none => none
        | some a => promiseValue s env a))
    ∧ ((getMultipleEnrichedUserInfo defaultAvatar baseUrl s env ids).1 =
      ids.map (fun idOpt =>
        match idOpt with
        | none => none
        | some a => some (enrichedPromiseValue defaultAvatar baseUrl s env a)))
    ∧ (getMultipleUserInfo s env ids).2.2.Nodup
    ∧ (∀ a ∈ (getMultipleUserInfo s env ids).2.2, some a ∈ ids)
    ∧ (s.cache = [] → s.pending = [] →
        (getMultipleUserInfo s env ids).2.2 =
          (jsSetDedup (ids.filterMap (fun x => x))).filter (fun a => ¬ (a = ""))) := by
  by_cases hids : ids.isEmpty
  · rw [List.isEmpty_iff] at hids
    subst hids
    exact ⟨rfl, rfl, List.nodup_nil, fun a ha => absurd ha (by simp [getMultipleUserInfo]),
      fun _ _ => rfl⟩
  · have hissue : (getMultipleUserInfo s env ids).2.2 =
        (jsSetDedup (ids.filterMap (fun x => x))).filter (freshLookupId s) := by
      simp only [getMultipleUserInfo, hids, Bool.false_eq_true, if_false]
      exact issue_fold_chars s _ s [] (jsSetDedup_nodup _) rfl (fun a _ => rfl)
    refine ⟨?_, ?_, ?_, ?_, ?_⟩
    · simp only [getMultipleUserInfo, hids, Bool.false_eq_true, if_false]
      apply List.map_congr_left
      intro idOpt hid
      rcases idOpt with _ | a
      · rfl
      · have hmem : a ∈ jsSetDedup (ids.filterMap (fun x => x)) := by
          rw [mem_jsSetDedup, List.mem_filterMap]
          exact ⟨some a, hid, rfl⟩
        dsimp only
        rw [mapLookup_zip_map (promiseValue s env) _ a, if_pos hmem, Option.getD_some]
    · simp only [getMultipleEnrichedUserInfo, hids, Bool.false_eq_true, if_false]
      apply List.map_congr_left
      intro idOpt hid
      rcases idOpt with _ | a
      · rfl
      · have hmem : a ∈ jsSetDedup (ids.filterMap (fun x => x)) := by
          rw [mem_jsSetDedup, List.mem_filterMap]
          exact ⟨some a, hid, rfl⟩
        dsimp only
        rw [mapLookup_zip_map (enrichedPromiseValue defaultAvatar baseUrl s env) _ a,
          if_pos hmem, Option.getD_some]
    · rw [hissue]
      exact List.Nodup.filter _ (jsSetDedup_nodup _)
    · intro a ha
      rw [hissue, List.mem_filter] at ha
      have := (mem_jsSetDedup _ a).mp ha.1
      rw [List.mem_filterMap] at this
      rcases this with ⟨idOpt, hid, hEq⟩
      rw [show idOpt = some a from hEq]  at hid
      exact hid
    · intro hcache hpend
      rw [hissue]
      apply List.filter_congr
      intro a _
      rw [freshLookupId, hcache, hpend]
      by_cases ha : a = ""
      · rw [if_pos ha]
        simp [ha]
      · rw [if_neg ha]
        simp [mapLookup, ha]

/-- Witness for C7 on a concrete id list with duplicates, a null and an
empty string, from the fresh cache. -/
theorem getMany_order_dedup_witness :
    (initCacheState.cache = [] ∧ initCacheState.pending = [])
    ∧ (getMultipleUserInfo initCacheState (fun _ => FetchOutcome.fail)
        [some "u1", none, some "u1", some "u2", some ""]).2.2 =
      (jsSetDedup (([some "u1", none, some "u1", some "u2", some ""] :
          List (Option String)).filterMap (fun x => x))).filter (fun a => ¬ (a = "")) :=
  ⟨⟨rfl, rfl⟩,
    (getMany_order_dedup initCacheState (fun _ => FetchOutcome.fail)
      [some "u1", none, some "u1", some "u2", some ""] "" "").2.2.2.2 rfl rfl⟩

/-- Witness for the amended C2 theorem at a concrete thread. -/
theorem forest_everyNodeOnce_witness :
    ((commentIds witThread).Nodup
      ∧ (∀ c ∈ witThread, ∀ p ∈ commentIds witThread,
          attachTarget (commentIds witThread) c = some p →
            (fun s => s.length - 1) p < (fun s => s.length - 1) c.id)
      ∧ (∀ c ∈ witThread, (fun (s : String) => s.length - 1) c.id < witThread.length))
    ∧ (∀ c ∈ witThread, (forestIds (buildCommentTree witThread) witThread.length).count c.id = 1) :=
  ⟨⟨by decide, by decide, by decide⟩,
    (forest_everyNodeOnce witThread (fun s => s.length - 1)
      (by decide) (by decide) (by decide)).1⟩

/-- C8 (counterexample): opening marker "m1" and then "m2" before the
first enrichment resolves does not bind the popup to "m2": the second
attempt is rejected outright by the processing lock (no state change, no
enrichment), and when the first attempt's enrichment arrives its
operation id is still the current one, so the popup ends bound to
"m1". -/
theorem popup_race_counterexample :
    (openPopupForMarkerStart initControllerState (some "m1") c8Comments c8Dom).1 =
      OpenOutcome.suspended 1
    ∧ c8Attempt2.1 = OpenOutcome.blockedProcessing
    ∧ c8Attempt2.2 = c8State1
    ∧ c8Final.popup.markerRef = some "m1"
    ∧ ¬ (c8Final.popup.markerRef = some "m2") := by
  decide

/-- C8 (amended): while an open attempt's enrichment is in flight the
processing lock rejects any further openPopupForMarker call outright -
the state is unchanged and no enrichment is started - so the in-flight
attempt's marker is the one committed; separately, an enrichment result
arriving with a stale operation id is discarded without touching the
state (compare-and-discard). -/
theorem popup_race_guards (st : ControllerState) (markerRef : Option String)
    (comments : List Comment) (dom : String → Bool) (opId : Nat) (m : String) (y : Int)
    (enriched : List String) :
    (st.isProcessing = true →
      openPopupForMarkerStart st markerRef comments dom = (.blockedProcessing, st))
    ∧ (¬ (opId = st.operationId) →
      openPopupForMarkerResume st opId m y (some enriched) = (.staleDiscarded, st)) := by
  constructor
  · intro h
    unfold openPopupForMarkerStart
    rw [if_pos h]
  · intro h
    simp only [openPopupForMarkerResume]
    rw [if_pos h]

/-- Witness for the amended C8 theorem: with the "m1" lookup in flight
the "m2" attempt is rejected, and a resume carrying operation id 5 in a
state whose current id is 1 is discarded. -/
theorem popup_race_guards_witness :
    (c8State1.isProcessing = true ∧ ¬ (5 = c8State1.operationId))
    ∧ openPopupForMarkerStart c8State1 (some "m2") c8Comments c8Dom =
        (.blockedProcessing, c8State1)
    ∧ openPopupForMarkerResume c8State1 5 "m1" 0 (some ["c1"]) = (.staleDiscarded, c8State1) :=
  ⟨⟨by decide, by decide⟩,
    (popup_race_guards c8State1 (some "m2") c8Comments c8Dom 5 "m1" 0 ["c1"]).1 (by decide),
    (popup_race_guards c8State1 (some "m2") c8Comments c8Dom 5 "m1" 0 ["c1"]).2 (by decide)⟩

/-- C10 (confirmed): opening is idempotent on the visible marker: when
the popup is visible and bound to marker m, a further open request for m
is a no-op on both controllers - openPopupForMarker returns with the
state unchanged and never suspends an enrichment (both when the lock is
held and when the same-marker guard fires), and openCommentPopup returns
its already-open guard without computing a related set to enrich. -/
theorem popup_open_idempotent (st : ControllerState) (m : String)
    (comments : List Comment) (dom : String → Bool) (popup : PopupState)
    (allComments : List Comment)
    (hv : st.popup.visible = true) (hm : st.popup.markerRef = some m)
    (hv2 : popup.visible = true) (hm2 : popup.markerRef = some m) :
    ((openPopupForMarkerStart st (some m) comments dom).2 = st
      ∧ ∀ opId, ¬ ((openPopupForMarkerStart st (some m) comments dom).1 =
          OpenOutcome.suspended opId))
    ∧ openCommentPopupStart popup (some m) allComments = PopupClickOutcome.alreadyOpen := by
  refine ⟨?_, ?_⟩
  · unfold openPopupForMarkerStart
    by_cases hproc : st.isProcessing
    · rw [if_pos hproc]
      exact ⟨rfl, fun opId h => by cases h⟩
    · rw [if_neg hproc, if_pos (by rw [hv, hm]; simp)]
      exact ⟨rfl, fun opId h => by cases h⟩
  · unfold openCommentPopupStart
    rw [if_pos (by rw [hv2, hm2]; simp)]

/-- Witness for C10 at a concrete visible popup bound to "m1". -/
theorem popup_open_idempotent_witness :
    (witOpenController.popup.visible = true
      ∧ witOpenController.popup.markerRef = some "m1")
    ∧ (openPopupForMarkerStart witOpenController (some "m1") c8Comments c8Dom).2 =
        witOpenController
    ∧ openCommentPopupStart witOpenController.popup (some "m1") c8Comments =
        PopupClickOutcome.alreadyOpen :=
  ⟨⟨rfl, rfl⟩,
    (popup_open_idempotent witOpenController "m1" c8Comments c8Dom witOpenController.popup
      c8Comments rfl rfl rfl rfl).1.1,
    (popup_open_idempotent witOpenController "m1" c8Comments c8Dom witOpenController.popup
      c8Comments rfl rfl rfl rfl).2⟩

theorem beginsWith_append_self : ∀ (p r : List Char), beginsWith p (p ++ r) = true := by
  intro p
  induction p with
  | nil => intro r; rfl
  | cons x ps ih =>
    intro r
    rw [List.cons_append, beginsWith, ih r, Bool.and_true]
    simp

theorem beginsWith_head_ne (x c : Char) (ps cs : List Char) (h : ¬ (x = c)) :
    beginsWith (x :: ps) (c :: cs) = false := by
  rw [beginsWith]
  simp [h]

theorem tryMatch_none_of_head_ne (c : Char) (cs : List Char) (hc : ¬ (c = '<')) :
    tryMatch (c :: cs) = none := by
  have hop : openLit = '<' :: "ac:inline-comment-marker".data := rfl
  have hb : beginsWith openLit (c :: cs) = false := by
    rw [hop]
    exact beginsWith_head_ne '<' c _ cs (fun hh => hc hh.symm)
  rw [tryMatch, hb]
  simp

theorem tryMatch_nil : tryMatch [] = none := by decide

theorem wrapAux_cons_some (cm : List (List Char × List Char)) (c : Char) (cs : List Char)
    (attrs content rest : List Char) (h : tryMatch (c :: cs) = some (attrs, content, rest)) :
    wrapAux cm (c :: cs) = mkReplacement cm attrs content ++ wrapAux cm rest := by
  conv_lhs => rw [wrapAux]
  split
  · next a' c' r' heq =>
    rw [h] at heq
    cases heq
    rfl
  · next heq =>
    rw [h] at heq
    cases heq

theorem wrapAux_cons_none (cm : List (List Char × List Char)) (c : Char) (cs : List Char)
    (h : tryMatch (c :: cs) = none) :
    wrapAux cm (c :: cs) = c :: wrapAux cm cs := by
  conv_lhs => rw [wrapAux]
  split
  · next a' c' r' heq =>
    rw [h] at heq
    cases heq
  · next heq =>
    rfl

theorem wrapAux_match (cm : List (List Char × List Char)) (l attrs content rest : List Char)
    (h : tryMatch l = some (attrs, content, rest)) :
    wrapAux cm l = mkReplacement cm attrs content ++ wrapAux cm rest := by
  rcases l with _ | ⟨c, cs⟩
  · rw [tryMatch_nil] at h
    cases h
  · exact wrapAux_cons_some cm c cs attrs content rest h

theorem wrapAux_text (cm : List (List Char × List Char)) :
    ∀ (s X : List Char), ¬ '<' ∈ s → wrapAux cm (s ++ X) = s ++ wrapAux cm X := by
  intro s
  induction s with
  | nil =>
    intro X _
    simp
  | cons c s ih =>
    intro X hmem
    have hc : ¬ (c = '<') := fun hh => hmem (hh ▸ List.mem_cons_self c s)
    rw [List.cons_append, wrapAux_cons_none cm c (s ++ X) (tryMatch_none_of_head_ne c _ hc),
      ih X (fun hx => hmem (List.mem_cons_of_mem c hx))]
    rfl

theorem splitAtLit_here (lit r : List Char) (x : Char) (xs : List Char) (hlit : lit = x :: xs) :
    splitAtLit lit (lit ++ r) = some ([], r) := by
  have hcons : lit ++ r = x :: (xs ++ r) := by rw [hlit, List.cons_append]
  rw [hcons, splitAtLit, ← hcons, beginsWith_append_self lit r, if_pos rfl, List.drop_left]

theorem splitAtLit_skip (lit : List Char) (c : Char) (cs : List Char)
    (h : beginsWith lit (c :: cs) = false) :
    splitAtLit lit (c :: cs) =
      (match splitAtLit lit cs with
       | some (b, a) => some (c :: b, a)
       | none => none) := by
  rw [splitAtLit, h]
  simp

theorem splitAtLit_exact (X : List Char) :
    ∀ (b : List Char), ¬ '<' ∈ b → splitAtLit closeLit (b ++ (closeLit ++ X)) = some (b, X) := by
  intro b
  induction b with
  | nil =>
    intro _
    rw [List.nil_append]
    exact splitAtLit_here closeLit X '<' "/ac:inline-comment-marker>".data rfl
  | cons c b ih =>
    intro hmem
    have hc : ¬ ('<' = c) := fun hh => hmem (hh ▸ List.mem_cons_self c b)
    have hb : beginsWith closeLit (c :: (b ++ (closeLit ++ X))) = false := by
      have hcl : closeLit = '<' :: "/ac:inline-comment-marker>".data := rfl
      rw [hcl]
      exact beginsWith_head_ne '<' c _ _ hc
    rw [List.cons_append, splitAtLit_skip closeLit c _ hb,
      ih (fun hx => hmem (List.mem_cons_of_mem c hx))]

theorem takeWhile_stop (p : Char → Bool) :
    ∀ (xs : List Char), (∀ x ∈ xs, p x = true) → ∀ (y : Char), p y = false → ∀ (R : List Char),
      (xs ++ y :: R).takeWhile p = xs := by
  intro xs
  induction xs with
  | nil =>
    intro _ y hy R
    rw [List.nil_append, List.takeWhile_cons, hy]
    simp
  | cons x xs ih =>
    intro hall y hy R
    rw [List.cons_append, List.takeWhile_cons, hall x (List.mem_cons_self x xs),
      ih (fun z hz => hall z (List.mem_cons_of_mem x hz)) y hy R]
    simp

/-- The marker regex matches the rendered marker tag at its own start,
capturing exactly the attribute text, the content, and the remainder. -/
theorem tryMatch_marker (attrs content X : List Char)
    (hgt : ¬ '>' ∈ attrs)
    (hbnd : ∀ a as, attrs = a :: as → isWordChar a = false)
    (hlt : ¬ '<' ∈ content) :
    tryMatch (openLit ++ (attrs ++ ('>' :: (content ++ (closeLit ++ X))))) =
      some (attrs, content, X) := by
  rw [tryMatch, beginsWith_append_self, if_pos rfl, List.drop_left]
  have hsplit : splitAtLit closeLit (content ++ (closeLit ++ X)) = some (content, X) :=
    splitAtLit_exact X content hlt
  rcases attrs with _ | ⟨a, as⟩
  · rw [List.nil_append]
    try dsimp only
    have hw : isWordChar '>' = false := by decide
    rw [hw]
    simp only [Bool.false_eq_true, if_false]
    have htw : ('>' :: (content ++ (closeLit ++ X))).takeWhile (fun ch => ¬ (ch = '>')) = [] := by
      rw [List.takeWhile_cons]
      simp
    rw [htw]
    simp only [List.length_nil, List.drop_zero]
    try dsimp only
    rw [hsplit]
  · rw [List.cons_append]
    try dsimp only
    have hw : isWordChar a = false := hbnd a as rfl
    rw [hw]
    simp only [Bool.false_eq_true, if_false]
    have hall : ∀ x ∈ a :: as, (fun ch => ¬ (ch = '>') : Char → Bool) x = true := by
      intro x hx
      simp only [decide_eq_true_eq]
      exact fun hh => hgt (hh ▸ hx)
    have hpy : (fun ch => ¬ (ch = '>') : Char → Bool) '>' = false := by simp
    have htw := takeWhile_stop (fun ch => ¬ (ch = '>')) (a :: as) hall '>' hpy
      (content ++ (closeLit ++ X))
    rw [show a :: (as ++ '>' :: (content ++ (closeLit ++ X))) =
      (a :: as) ++ '>' :: (content ++ (closeLit ++ X)) from rfl]
    rw [htw, List.drop_left]
    try dsimp only
    rw [hsplit]

theorem wrapAux_nil (cm : List (List Char × List Char)) : wrapAux cm [] = [] := by
  rw [wrapAux]

theorem extractRef_mkRefAttrs (r : List Char) (hr : ¬ (r = [])) (hq : ¬ '"' ∈ r) :
    extractRef (mkRefAttrs r) = some r := by
  have h1 : mkRefAttrs r = ' ' :: (refLit ++ (r ++ ['"'])) := by
    rw [mkRefAttrs, List.append_assoc]
  have hb1 : beginsWith refLit (' ' :: (refLit ++ (r ++ ['"']))) = false := by
    have hrl : refLit = 'a' :: "c:ref=\"".data := rfl
    rw [hrl]
    exact beginsWith_head_ne 'a' ' ' _ _ (by decide)
  rw [h1, extractRef, hb1]
  simp only [Bool.false_eq_true, if_false]
  have h2 : refLit ++ (r ++ ['"']) = 'a' :: ("c:ref=\"".data ++ (r ++ ['"'])) := rfl
  rw [h2, extractRef, ← h2, beginsWith_append_self, if_pos rfl, List.drop_left]
  dsimp only
  have hall : ∀ x ∈ r, (fun ch => ¬ (ch = '"') : Char → Bool) x = true := by
    intro x hx
    simp only [decide_eq_true_eq]
    exact fun hh => hq (hh ▸ hx)
  have htw : (r ++ ['"']).takeWhile (fun ch => ¬ (ch = '"')) = r :=
    takeWhile_stop (fun ch => ¬ (ch = '"')) r hall '"' (by simp) []
  rw [htw, if_pos ⟨hr, by simp⟩]

/-- The regex replacement transforms well-formed markup segment-wise:
text is copied and every comment-anchor tag becomes its span. -/
theorem wrapAux_render (cm : List (List Char × List Char)) :
    ∀ (segs : List Seg), (∀ seg ∈ segs, segWF seg = true) →
      wrapAux cm (render segs) = segs.flatMap (wrapSeg cm) := by
  intro segs
  induction segs with
  | nil =>
    intro _
    simp [render, wrapAux_nil]
  | cons seg rest ih =>
    intro hwf
    have hseg := hwf seg (List.mem_cons_self seg rest)
    have hrest := fun sg hsg => hwf sg (List.mem_cons_of_mem seg hsg)
    rcases seg with sTxt | ⟨attrs, content⟩
    · have hs : ¬ '<' ∈ sTxt := by simpa [segWF] using hseg
      rw [show render (Seg.text sTxt :: rest) = sTxt ++ render rest from by
            rw [render, render, List.flatMap_cons]; rfl,
        wrapAux_text cm sTxt (render rest) hs, ih hrest,
        List.flatMap_cons]
      rfl
    · simp only [segWF, Bool.and_eq_true, decide_eq_true_eq] at hseg
      have hgt : ¬ '>' ∈ attrs := hseg.1.1.1
      have hcnt : ¬ '<' ∈ content := hseg.2
      have hbnd : ∀ a as, attrs = a :: as → isWordChar a = false := by
        intro a as hEq
        subst hEq
        have h2 : ¬ (isWordChar a = true) := by
          have := hseg.1.2
          simpa using this
        exact Bool.eq_false_iff.mpr h2
      have hEq : render (Seg.marker attrs content :: rest) =
          openLit ++ (attrs ++ ('>' :: (content ++ (closeLit ++ render rest)))) := by
        rw [render, render, List.flatMap_cons]
        show (openLit ++ attrs ++ '>' :: (content ++ closeLit)) ++ rest.flatMap renderSeg = _
        simp [List.append_assoc]
      rw [hEq, wrapAux_match cm _ attrs content (render rest)
          (tryMatch_marker attrs content (render rest) hgt hbnd hcnt),
        ih hrest, List.flatMap_cons]
      rfl

/-- C9 (confirmed): on well-formed raw markup, wrapInlineCommentMarkers
replaces each comment-anchor tag with a span element carrying the
data-marker-ref attribute and the conf-inline-comment class plus the
color class taken from the map for the extracted marker ref (plain text
is untouched); the lowest-tier class comment-rank-0 is used whenever the
marker ref has no map entry or no ref can be extracted (in which case
the data-marker-ref attribute is empty). -/
theorem wrap_annotates (colorMap : List (List Char × List Char)) (segs : List Seg)
    (hwf : ∀ seg ∈ segs, segWF seg = true) :
    wrapInlineCommentMarkers colorMap (render segs) = segs.flatMap (wrapSeg colorMap)
    ∧ (∀ r cls content, ¬ (r = []) → ¬ '"' ∈ r → mapLookup r colorMap = some cls →
        mkReplacement colorMap (mkRefAttrs r) content =
          spanPart1 ++ cls ++ spanPart2 ++ r ++ spanPart3 ++ content ++ spanClose)
    ∧ (∀ r content, ¬ (r = []) → ¬ '"' ∈ r → mapLookup r colorMap = none →
        mkReplacement colorMap (mkRefAttrs r) content =
          spanPart1 ++ defaultColorClass ++ spanPart2 ++ r ++ spanPart3 ++ content ++ spanClose)
    ∧ (∀ content, mkReplacement colorMap [] content =
        spanPart1 ++ defaultColorClass ++ spanPart2 ++ [] ++ spanPart3 ++ content ++ spanClose) := by
  refine ⟨?_, ?_, ?_, ?_⟩
  · rw [show wrapInlineCommentMarkers colorMap (render segs) = wrapAux colorMap (render segs) from by
        rw [wrapInlineCommentMarkers]
        by_cases h : render segs = []
        · rw [if_pos h, h, wrapAux_nil]
        · rw [if_neg h]]
    exact wrapAux_render colorMap segs hwf
  · intro r cls content hr hq hmap
    rw [mkReplacement, extractRef_mkRefAttrs r hr hq]
    dsimp only
    rw [hmap]
  · intro r content hr hq hmap
    rw [mkReplacement, extractRef_mkRefAttrs r hr hq]
    dsimp only
    rw [hmap]
  · intro content
    rfl

/-- Witness for C9: a well-formed page fragment with one marker bound to
tier 2 in the color map. -/
theorem wrap_annotates_witness :
    (∀ seg ∈ witSegs, segWF seg = true)
    ∧ wrapInlineCommentMarkers witColorMap (render witSegs) =
        witSegs.flatMap (wrapSeg witColorMap) :=
  ⟨by decide, (wrap_annotates witColorMap witSegs (by decide)).1⟩

end ConfApp
